import Mathlib

/-!
Verification of the `uniq` duplicate-file classifier (src/main.rs).

The development shallowly embeds the program:
* paths are lists of components (`Path`), mirroring Rust `PathBuf`, whose
  `Ord` compares component sequences lexicographically;
* the filesystem is a tree of entries (`FSEntry`), directory listings and
  file reads may fail (`Except`), mirroring `read_dir` / `File::read` errors;
* the tree walker `FileIterator` is embedded as `iterAll` on an explicit
  stack of open directory listings, as in the source;
* the content hasher is embedded byte by byte: MD5 (`md5hex`) computed by
  reading a file in 4096-byte chunks (`readChunks`, `hashFile`);
* the classifier/placer loop of `main` (lines 143-212 of the source) is
  embedded as `processGroup` / `processGroups` over fingerprint groups,
  and the whole pipeline as `runMain`.
-/

namespace Uniq

/-! ### Paths

A Rust `PathBuf` is modelled as its list of normal components.  Rust's
`Path::cmp` compares the component sequences lexicographically with
byte-wise (= codepoint-wise, for UTF-8) comparison of each component,
which coincides with Mathlib's lexicographic `LinearOrder` on
`List String`. -/

abbrev Path := List String

deriving instance DecidableEq for Except

/-- Rust `Path::starts_with`: componentwise prefix test. -/
def startsWith (p pre : Path) : Bool := pre.isPrefixOf p

/-- Rust `Path::strip_prefix`, returning the remaining components. -/
def stripDir (pre p : Path) : Option Path :=
  if startsWith p pre then some (p.drop pre.length) else none

/-- Rust `Path::file_name`: the final component. -/
def fileName (p : Path) : Option String := p.getLast?

/-- Rust `Path::display` of a relative path: components joined by `/`. -/
def display (p : Path) : String := String.intercalate "/" p

/-- Generic strict lexicographic order on lists over a strict order. -/
def lexLtB {α : Type} (ltB : α → α → Bool) : List α → List α → Bool
  | _, [] => false
  | [], _ :: _ => true
  | a :: as, b :: bs =>
    if ltB a b then true else if ltB b a then false else lexLtB ltB as bs

/-- Codepoint order on characters (= byte order of their UTF-8
encodings, the order Rust compares string contents by). -/
def charLtB (c d : Char) : Bool := c.toNat < d.toNat

/-- Rust `str`/`String`/`OsStr` order: bytewise lexicographic. -/
def strLtB (a b : String) : Bool := lexLtB charLtB a.data b.data

/-- Rust `PathBuf` order (`Path::cmp`): lexicographic on the component
sequences, each component compared bytewise. -/
def pathLtB (p q : Path) : Bool := lexLtB strLtB p q

/-- Non-strict form of `pathLtB`. -/
def pathLeB (p q : Path) : Bool := !pathLtB q p

/-- Non-strict form of `strLtB`. -/
def strLeB (a b : String) : Bool := !strLtB b a

/-- The relation `same_files.sort()` sorts by. -/
def pathLe (p q : Path) : Prop := pathLeB p q = true

/-- The relation `ignored_files.sort()` sorts by. -/
def strLe (a b : String) : Prop := strLeB a b = true

instance : DecidableRel pathLe := fun p q => instDecidableEqBool (pathLeB p q) true

instance : DecidableRel strLe := fun a b => instDecidableEqBool (strLeB a b) true

/-- The sort of `same_files.sort()` (line 153): Rust `PathBuf` order,
i.e. lexicographic on components. -/
def sortPaths (ps : List Path) : List Path := ps.insertionSort pathLe

/-- The sort of `ignored_files.sort()` (line 208): Rust `String` order. -/
def sortStrings (ss : List String) : List String := ss.insertionSort strLe

/-! ### MD5

The `md5` crate: `Context::consume` appends bytes to the message being
digested, `Context::compute` produces the 16-byte MD5 digest, and
`format!("{:x}", digest)` prints it as 32 lowercase hex characters.
The digest itself is implemented below on byte lists (bytes and 32-bit
words are `Nat`s reduced mod 2^32 where overflow matters). -/

/-- Truncation to a 32-bit word. -/
def w32 (n : Nat) : Nat := n % 4294967296

/-- 32-bit modular addition. -/
def addw (a b : Nat) : Nat := (a + b) % 4294967296

/-- 32-bit complement. -/
def notw (a : Nat) : Nat := Nat.xor a 4294967295

/-- 32-bit left rotation. -/
def rotl (x c : Nat) : Nat := w32 (Nat.lor (w32 (Nat.shiftLeft x c)) (Nat.shiftRight x (32 - c)))

/-- MD5 per-round shift amounts. -/
def md5S : List Nat :=
  [7, 12, 17, 22, 7, 12, 17, 22, 7, 12, 17, 22, 7, 12, 17, 22,
   5, 9, 14, 20, 5, 9, 14, 20, 5, 9, 14, 20, 5, 9, 14, 20,
   4, 11, 16, 23, 4, 11, 16, 23, 4, 11, 16, 23, 4, 11, 16, 23,
   6, 10, 15, 21, 6, 10, 15, 21, 6, 10, 15, 21, 6, 10, 15, 21]

/-- MD5 sine-derived constants. -/
def md5K : List Nat :=
  [0xd76aa478, 0xe8c7b756, 0x242070db, 0xc1bdceee,
   0xf57c0faf, 0x4787c62a, 0xa8304613, 0xfd469501,
   0x698098d8, 0x8b44f7af, 0xffff5bb1, 0x895cd7be,
   0x6b901122, 0xfd987193, 0xa679438e, 0x49b40821,
   0xf61e2562, 0xc040b340, 0x265e5a51, 0xe9b6c7aa,
   0xd62f105d, 0x02441453, 0xd8a1e681, 0xe7d3fbc8,
   0x21e1cde6, 0xc33707d6, 0xf4d50d87, 0x455a14ed,
   0xa9e3e905, 0xfcefa3f8, 0x676f02d9, 0x8d2a4c8a,
   0xfffa3942, 0x8771f681, 0x6d9d6122, 0xfde5380c,
   0xa4beea44, 0x4bdecfa9, 0xf6bb4b60, 0xbebfbc70,
   0x289b7ec6, 0xeaa127fa, 0xd4ef3085, 0x04881d05,
   0xd9d4d039, 0xe6db99e5, 0x1fa27cf8, 0xc4ac5665,
   0xf4292244, 0x432aff97, 0xab9423a7, 0xfc93a039,
   0x655b59c3, 0x8f0ccc92, 0xffeff47d, 0x85845dd1,
   0x6fa87e4f, 0xfe2ce6e0, 0xa3014314, 0x4e0811a1,
   0xf7537e82, 0xbd3af235, 0x2ad7d2bb, 0xeb86d391]

/-- 8-byte little-endian encoding of a 64-bit value. -/
def le64 (n : Nat) : List Nat :=
  [n % 256, n / 256 % 256, n / 65536 % 256, n / 16777216 % 256,
   n / 4294967296 % 256, n / 1099511627776 % 256,
   n / 281474976710656 % 256, n / 72057594037927936 % 256]

/-- MD5 padding: a 0x80 byte, zeros to 56 mod 64, then the bit length. -/
def padMsg (msg : List Nat) : List Nat :=
  msg ++ 0x80 :: List.replicate ((119 - msg.length % 64) % 64) 0 ++
    le64 (msg.length * 8 % 18446744073709551616)

/-- Split a 64-byte block into 16 little-endian 32-bit words. -/
def toWords : List Nat → List Nat
  | b0 :: b1 :: b2 :: b3 :: rest =>
      (b0 + 256 * b1 + 65536 * b2 + 16777216 * b3) :: toWords rest
  | _ => []

/-- One of the 64 MD5 rounds on state `(a, b, c, d)`. -/
def md5Round (m : List Nat) (st : Nat × Nat × Nat × Nat) (i : Nat) :
    Nat × Nat × Nat × Nat :=
  let a := st.1
  let b := st.2.1
  let c := st.2.2.1
  let d := st.2.2.2
  let fg : Nat × Nat :=
    if i < 16 then (Nat.lor (Nat.land b c) (Nat.land (notw b) d), i)
    else if i < 32 then (Nat.lor (Nat.land d b) (Nat.land (notw d) c), (5 * i + 1) % 16)
    else if i < 48 then (Nat.xor b (Nat.xor c d), (3 * i + 5) % 16)
    else (Nat.xor c (Nat.lor b (notw d)), 7 * i % 16)
  let f := addw (addw (addw fg.1 a) (md5K.getD i 0)) (m.getD fg.2 0)
  (d, addw b (rotl f (md5S.getD i 0)), b, c)

/-- Process one 64-byte block. -/
def md5Block (st : Nat × Nat × Nat × Nat) (block : List Nat) :
    Nat × Nat × Nat × Nat :=
  let m := toWords block
  let r := (List.range 64).foldl (md5Round m) st
  (addw st.1 r.1, addw st.2.1 r.2.1, addw st.2.2.1 r.2.2.1, addw st.2.2.2 r.2.2.2)

/-- Process a padded message 64 bytes at a time; `fuel` is only a
termination device — any fuel at least the message length gives the same
result (each step consumes 64 bytes). -/
def md5Iter : Nat → (Nat × Nat × Nat × Nat) → List Nat → Nat × Nat × Nat × Nat
  | _, st, [] => st
  | 0, st, _ :: _ => st
  | fuel + 1, st, b :: bs =>
      md5Iter fuel (md5Block st ((b :: bs).take 64)) ((b :: bs).drop 64)

/-- Process a padded message 64 bytes at a time. -/
def md5Blocks (st : Nat × Nat × Nat × Nat) (bytes : List Nat) :
    Nat × Nat × Nat × Nat :=
  md5Iter bytes.length st bytes

/-- 4-byte little-endian encoding of a 32-bit word. -/
def le32 (n : Nat) : List Nat :=
  [n % 256, n / 256 % 256, n / 65536 % 256, n / 16777216 % 256]

/-- The 16 digest bytes of a message. -/
def md5Bytes (msg : List Nat) : List Nat :=
  let st := md5Blocks (0x67452301, 0xefcdab89, 0x98badcfe, 0x10325476) (padMsg msg)
  le32 st.1 ++ le32 st.2.1 ++ le32 st.2.2.1 ++ le32 st.2.2.2

/-- Lowercase hexadecimal digit. -/
def hexDigit (n : Nat) : Char :=
  if n < 10 then Char.ofNat (48 + n) else Char.ofNat (87 + n % 16)

/-- The characters `0`-`9`, `a`-`f`. -/
def hexChars : List Char := "0123456789abcdef".data

/-- `format!("{:x}", context.compute())` (line 89): the digest's canonical
lowercase hexadecimal representation, two digits per byte. -/
def md5hex (msg : List Nat) : String :=
  String.mk ((md5Bytes msg).flatMap (fun b => [hexDigit (b / 16 % 16), hexDigit (b % 16)]))

/-! ### The content hasher, `hash` (lines 74-92)

`hash` opens the file, repeatedly reads into a 4096-byte buffer
(`let mut buffer = [0; 4 * 1024]`), folds each non-empty chunk into the
running digest with `context.consume(&buffer[..read])`, stops at the
first zero-length read, and formats the digest.  A file is modelled by
its byte content together with an optional index of a read call that
fails (`File::read` returning `Err`) and an open failure flag. -/

/-- A file as seen by `hash`: content, plus the failure behaviour of
`File::open` and of the successive `file.read` calls. -/
structure MFile where
  content : List Nat
  openFail : Bool
  failRead : Option Nat
  errMsg : String
deriving DecidableEq, Repr

/-- The read loop of `hash` (lines 79-87), returning the list of chunks
consumed into the digest context.  The `i`-th read call fails when
`failRead = some i`; otherwise it returns the next at-most-4096 bytes,
and the loop exits at the first empty read.  `fuel` is only a
termination device: any fuel at least the length of `rem` gives the
result of running the loop to its natural exit. -/
def readChunksF (failRead : Option Nat) (err : String) :
    Nat → Nat → List Nat → Except String (List (List Nat))
  | _, i, [] => if failRead = some i then .error err else .ok []
  | 0, i, _ :: _ => if failRead = some i then .error err else .ok []
  | fuel + 1, i, r :: rs =>
    if failRead = some i then .error err
    else
      (readChunksF failRead err fuel (i + 1) ((r :: rs).drop 4096)).map
        (fun cs => (r :: rs).take 4096 :: cs)

/-- The chunks `hash` consumes for a file whose reads all succeed. -/
def readChunks (failRead : Option Nat) (err : String) (content : List Nat) :
    Except String (List (List Nat)) :=
  readChunksF failRead err content.length 0 content

/-- The number of non-empty reads `hash` performs on `content`; the read
call with this index is the final, empty one. -/
def chunksOfF : Nat → List Nat → List (List Nat)
  | _, [] => []
  | 0, _ :: _ => []
  | fuel + 1, r :: rs => (r :: rs).take 4096 :: chunksOfF fuel ((r :: rs).drop 4096)

/-- `content` cut into successive 4096-byte chunks. -/
def chunksOf (content : List Nat) : List (List Nat) := chunksOfF content.length content

/-- The index of the final (empty) read call on `content`. -/
def numChunks (content : List Nat) : Nat := (chunksOf content).length

/-- `hash` (lines 74-92): open the file, stream it through the digest in
4096-byte chunks, and return the hex digest; any open or read failure is
returned as the error, and no fingerprint is produced. -/
def hashFile (f : MFile) : Except String String :=
  if f.openFail then .error f.errMsg
  else (readChunks f.failRead f.errMsg f.content).map (fun cs => md5hex cs.flatten)

/-! ### The filesystem and the tree walker, `FileIterator` (lines 30-72)

The directory tree is a list of entries.  A directory's listing may be
unreadable (`read_dir` fails); a file's content may be unreadable
(`File::open`/`read` inside `hash` fails).  `FileIterator` keeps an
explicit stack of open directory listings; `next` pops exhausted
listings, descends into directories (yielding the `read_dir` error as an
item when the descent fails), and yields every non-directory entry. -/

/-- A directory entry: a file with (possibly unreadable) content, or a
subdirectory with a (possibly unreadable) listing. -/
inductive FSEntry
  | file (name : String) (content : Except String (List Nat))
  | dir (name : String) (listing : Except String (List FSEntry))

/-- The name of a directory entry. -/
def entryName : FSEntry → String
  | .file n _ => n
  | .dir n _ => n

/-- One item produced by the walk: an error, or a discovered file's
absolute path together with the content `hash` will read at that path. -/
abbrev WalkItem := Except String (Path × Except String (List Nat))

mutual

/-- Size of an entry, the termination measure for the walker. -/
def szEntry : FSEntry → Nat
  | .file _ _ => 1
  | .dir _ (.error _) => 1
  | .dir _ (.ok es) => 1 + szEntries es

/-- Size of a listing. -/
def szEntries : List FSEntry → Nat
  | [] => 0
  | e :: es => szEntry e + szEntries es

end

/-- Termination measure of the walker stack. -/
def szStack : List (Path × List FSEntry) → Nat
  | [] => 0
  | (_, es) :: stk => 1 + 2 * szEntries es + szStack stk

/-- The walker loop (`FileIterator::next`, lines 45-71), run to
exhaustion: the stack holds the path and remaining listing of each open
directory; exhausted listings are popped, files are yielded, readable
subdirectories are pushed, and an unreadable subdirectory yields its
`read_dir` error as an item after which the walk continues with the
remaining entries. -/
def iterAll : List (Path × List FSEntry) → List WalkItem
  | [] => []
  | (_, []) :: stk => iterAll stk
  | (p, .file n c :: rest) :: stk => .ok (p ++ [n], c) :: iterAll ((p, rest) :: stk)
  | (p, .dir n (.ok es) :: rest) :: stk => iterAll ((p ++ [n], es) :: (p, rest) :: stk)
  | (p, .dir _ (.error e) :: rest) :: stk => .error e :: iterAll ((p, rest) :: stk)
termination_by stk => szStack stk
decreasing_by all_goals simp [szStack, szEntries, szEntry] <;> omega

/-- The whole walk of the tree under `root` (`FileIterator::new(&args.root)`
followed by iteration to exhaustion). -/
def walkResults (root : Path) (fs : List FSEntry) : List WalkItem :=
  iterAll [(root, fs)]

mutual

/-- The items contributed to the walk by a single entry of the directory
at path `p`. -/
def entryOut (p : Path) : FSEntry → List WalkItem
  | .file n c => [.ok (p ++ [n], c)]
  | .dir n (.ok es) => entsOut (p ++ [n]) es
  | .dir _ (.error e) => [.error e]

/-- The items contributed by a listing, in order. -/
def entsOut (p : Path) : List FSEntry → List WalkItem
  | [] => []
  | e :: es => entryOut p e ++ entsOut p es

end

/-! ### The hashing stage and collection (lines 124-148) -/

/-- `path.and_then(hash)` (line 128): a walk error passes through, a
discovered file is hashed — which fails if its content is unreadable. -/
def hashItem : WalkItem → Except String (Path × String)
  | .error e => .error e
  | .ok (_, .error e) => .error e
  | .ok (p, .ok c) => .ok (p, md5hex c)

/-- The sequential loop of lines 145-148: the first `Err` in the
collected vector aborts `main` via `?`; otherwise all records are kept. -/
def collectRecords : List (Except String (Path × String)) →
    Except String (List (Path × String))
  | [] => .ok []
  | .error e :: _ => .error e
  | .ok r :: rest => (collectRecords rest).map (fun rs => r :: rs)

/-- One step of building `hashed_files`:
`hashed_files.entry(hash).or_insert_with(Vec::new).push(path)` (line 147). -/
def addRecord : List (String × List Path) → (Path × String) → List (String × List Path)
  | [], r => [(r.2, [r.1])]
  | g :: gs, r => if g.1 == r.2 then (g.1, g.2 ++ [r.1]) :: gs else g :: addRecord gs r

/-- The `hashed_files` map: fingerprint → paths, keyed uniquely.  (The
entries of a `HashMap` are later iterated in an unspecified order; the
theorems below quantify over permutations of this list.) -/
def buildGroups (rs : List (Path × String)) : List (String × List Path) :=
  rs.foldl addRecord []

/-! ### The classifier and output placer (lines 150-212) -/

/-- The already-validated configuration reaching the core
(`args.work_dir` already joined with the root, `out_dir` resolved). -/
structure RunCfg where
  root : Path
  workDir : Path
  outDir : Path
  rename : Bool
deriving DecidableEq, Repr

/-- The observable state of the placement loop: the names present in the
output directory (pre-existing and copied), the copies performed (dest
basename, source path), the `ignored_files` report lines, and the rename
diagnostics printed to stderr. -/
structure PlaceState where
  outNames : List String
  copies : List (String × Path)
  report : List String
  diags : List String
deriving DecidableEq, Repr

/-- `file.starts_with(&args.work_dir)` (lines 157, 162). -/
def isWorking (cfg : RunCfg) (p : Path) : Bool := startsWith p cfg.workDir

/-- `p.strip_prefix(base).unwrap().display()`; the `unwrap` is modelled
by `getD` — the safety claim shows the stripped form is always `some`
at every call site. -/
def relTo (base p : Path) : String := display ((stripDir base p).getD p)

/-- A report line `relative-working-path = resolved-identifier`. -/
def mkDupLine (l r : String) : String := l ++ " = " ++ r

/-- The diagnostic of lines 187-192. -/
def renameDiag (rel orig new : String) : String :=
  "File " ++ rel ++ " is unique, but " ++ orig ++
    " already exists in output directory. Renaming to " ++ new ++ "."

/-- One iteration of the classification loop (lines 152-206) on the
group `g = (hash, same_files)`:
sort the members, take the first working file if any; if a non-working
member exists, record the duplicate line and place nothing; otherwise
copy the first working file under its base name (fingerprint-prefixed in
rename mode, or re-tagged with a diagnostic when the name is already
present and rename mode is off) and record each remaining working file
against the name actually used. -/
def processGroup (cfg : RunCfg) (st : PlaceState) (g : String × List Path) : PlaceState :=
  let same := sortPaths g.2
  let workings := same.filter (fun f => isWorking cfg f)
  match workings with
  | [] => st
  | w :: rest =>
    match same.find? (fun f => !isWorking cfg f) with
    | some ex =>
      { st with report := st.report ++ [mkDupLine (relTo cfg.workDir w) (relTo cfg.root ex)] }
    | none =>
      let base := (fileName w).getD ""
      let n1 := if cfg.rename then g.1 ++ "_" ++ base else base
      if cfg.rename = false ∧ n1 ∈ st.outNames then
        let n2 := g.1 ++ "_" ++ n1
        { outNames := st.outNames ++ [n2]
          copies := st.copies ++ [(n2, w)]
          report := st.report ++ rest.map (fun f => mkDupLine (relTo cfg.workDir f) n2)
          diags := st.diags ++ [renameDiag (relTo cfg.workDir w) base n2] }
      else
        { outNames := st.outNames ++ [n1]
          copies := st.copies ++ [(n1, w)]
          report := st.report ++ rest.map (fun f => mkDupLine (relTo cfg.workDir f) n1)
          diags := st.diags }

/-- The whole classification loop over the fingerprint groups. -/
def processGroups (cfg : RunCfg) (groups : List (String × List Path))
    (st : PlaceState) : PlaceState :=
  groups.foldl (processGroup cfg) st

/-- `ignored_files.sort()` followed by printing (lines 208-212). -/
def finalReport (st : PlaceState) : List String := sortStrings st.report

/-- The content the output directory holds at `n` after the run, given
the copies performed in order: the last copy to `n` wins (`fs::copy`
overwrites an existing destination). -/
def copyLookup (copies : List (String × Path)) (n : String) : Option Path :=
  copies.reverse.lookup n

/-! ### `create_dir_all` and the whole pipeline (`main`, lines 94-217) -/

/-- Replace the first entry named `n`. -/
def replaceEntry : List FSEntry → String → FSEntry → List FSEntry
  | [], _, _ => []
  | e :: rest, n, e2 =>
    if entryName e == n then e2 :: rest else e :: replaceEntry rest n e2

/-- A fresh chain of nested empty directories. -/
def mkDirs : List String → List FSEntry
  | [] => []
  | n :: rest => [.dir n (.ok (mkDirs rest))]

/-- `create_dir_all(&out_dir)` (line 120), restricted to a path under
the modelled root: existing directories are kept, missing ones are
created (parents included); an existing non-directory is an error. -/
def createDirAll (es : List FSEntry) : List String → Except String (List FSEntry)
  | [] => .ok es
  | n :: rest =>
    match es.find? (fun e => entryName e == n) with
    | none => .ok (es ++ mkDirs (n :: rest))
    | some (.file _ _) => .error "create_dir_all: exists and is not a directory"
    | some (.dir _ (.error e)) => if rest.isEmpty then .ok es else .error e
    | some (.dir _ (.ok sub)) =>
      (createDirAll sub rest).map (fun sub2 => replaceEntry es n (.dir n (.ok sub2)))

/-- The entry names directly inside the directory at `rel` (what
`out_file.exists()` can see in the output directory when the run
starts). -/
def namesAt (es : List FSEntry) : List String → List String
  | [] => es.map entryName
  | n :: rest =>
    match es.find? (fun e => entryName e == n) with
    | some (.dir _ (.ok sub)) => namesAt sub rest
    | _ => []

/-- `main` after argument validation (lines 116-216): create the output
directory, walk the tree rooted at `cfg.root`, hash every discovered
file, abort on the first collected error, group by fingerprint, run the
classification/placement loop, and return the final placement state
(the report is `finalReport` of it).  When the output directory lies
under the root it is part of the walked tree; otherwise its pre-existing
entry names are the unmodelled `outerNames`.  The fingerprint groups are
processed here in insertion order; `HashMap` iteration order is
unspecified, so order-sensitivity theorems quantify over permutations of
`buildGroups`. -/
def runMain (cfg : RunCfg) (fs : List FSEntry) (outerNames : List String) :
    Except String PlaceState :=
  match stripDir cfg.root cfg.outDir with
  | some rel =>
    match createDirAll fs rel with
    | .error e => .error e
    | .ok fs1 =>
      (collectRecords ((walkResults cfg.root fs1).map hashItem)).map
        (fun recs => processGroups cfg (buildGroups recs)
          ⟨namesAt fs1 rel, [], [], []⟩)
  | none =>
    (collectRecords ((walkResults cfg.root fs).map hashItem)).map
      (fun recs => processGroups cfg (buildGroups recs) ⟨outerNames, [], [], []⟩)

/-! ### Auxiliary notions used by the theorems below -/

/-- Whether a listing's entry names are pairwise distinct. -/
def nodupNames (es : List FSEntry) : Bool := decide (es.map entryName).Nodup

mutual

/-- Well-formedness of an entry: every readable directory listing below
it has pairwise-distinct entry names (true of a real filesystem). -/
def wfEntry : FSEntry → Bool
  | .file _ _ => true
  | .dir _ (.error _) => true
  | .dir _ (.ok es) => nodupNames es && wfEntries es

/-- Well-formedness of all the entries of a listing. -/
def wfEntries : List FSEntry → Bool
  | [] => true
  | e :: es => wfEntry e && wfEntries es

end

/-- Well-formedness of a whole tree. -/
def wfFS (es : List FSEntry) : Bool := nodupNames es && wfEntries es

/-- The non-directory entry at relative path `rel` exists and is
reachable by recursive descent through readable directories. -/
inductive FileIn : List FSEntry → List String → Prop
  | here {es : List FSEntry} {n : String} {c : Except String (List Nat)} :
      FSEntry.file n c ∈ es → FileIn es [n]
  | there {es : List FSEntry} {n : String} {sub : List FSEntry} {rest : List String} :
      FSEntry.dir n (Except.ok sub) ∈ es → FileIn sub rest → FileIn es (n :: rest)

/-- The directory at relative path `rel` exists and is reachable by
recursive descent through readable directories. -/
inductive DirIn : List FSEntry → List String → Prop
  | here {es : List FSEntry} {n : String} {l : Except String (List FSEntry)} :
      FSEntry.dir n l ∈ es → DirIn es [n]
  | there {es : List FSEntry} {n : String} {sub : List FSEntry} {rest : List String} :
      FSEntry.dir n (Except.ok sub) ∈ es → DirIn sub rest → DirIn es (n :: rest)

/-- The paths of the successfully walked files, in walk order. -/
def okPaths (items : List WalkItem) : List Path :=
  items.filterMap (fun it => match it with
    | .ok (q, _) => some q
    | .error _ => none)

/-- The first error among the hash results, in collection order — the
error `main` returns when any hash or listing failure occurred. -/
def firstError {α : Type} : List (Except String α) → Option String
  | [] => none
  | .error e :: _ => some e
  | .ok _ :: rest => firstError rest

/-- All member paths of all fingerprint groups, concatenated. -/
def groupsPaths (gs : List (String × List Path)) : List Path :=
  (gs.map (fun g => g.2)).flatten

/-- A group with its member list sorted — the normal form `processGroup`
reduces every group to before deciding anything. -/
def normG (g : String × List Path) : String × List Path := (g.1, sortPaths g.2)

/-- The state-independent contribution of one group: the copy it
performs (destination name and source path, `none` when it places
nothing) and the report lines it emits — valid whenever no retag
collision occurs at its destination. -/
def groupPure (cfg : RunCfg) (g : String × List Path) :
    Option (String × Path) × List String :=
  let same := sortPaths g.2
  let workings := same.filter (fun f => isWorking cfg f)
  match workings with
  | [] => (none, [])
  | w :: rest =>
    match same.find? (fun f => !isWorking cfg f) with
    | some ex => (none, [mkDupLine (relTo cfg.workDir w) (relTo cfg.root ex)])
    | none =>
      let base := (fileName w).getD ""
      let n1 := if cfg.rename then g.1 ++ "_" ++ base else base
      (some (n1, w), rest.map (fun f => mkDupLine (relTo cfg.workDir f) n1))

/-- The destination name a group copies to (absent a retag collision). -/
def groupDest (cfg : RunCfg) (g : String × List Path) : Option String :=
  ((groupPure cfg g).1).map Prod.fst

/-- The full path string of a path, as the spec's tie-break renders it:
the `/`-joined absolute form. -/
def absDisplay (p : Path) : String := "/" ++ display p

/-- Modelled from the spec: the representative the specification
prescribes for an all-working group — "sort all paths in the group
lexicographically by their full path string and take the first". -/
def specStringFirst (ps : List Path) : Option Path :=
  (ps.insertionSort (fun a b => strLeB (absDisplay a) (absDisplay b) = true)).head?

/-- Scenario tree for the stale-output claim: a root holding the working
directory `w` with `a.txt`, and the default output directory `w.uniq`
still holding `old.txt` from a previous run, byte-identical to
`a.txt`. -/
def staleFS (c : List Nat) : List FSEntry :=
  [.dir "w" (.ok [.file "a.txt" (.ok c)]),
   .dir "w.uniq" (.ok [.file "old.txt" (.ok c)])]

/-- Configuration of the stale-output scenario: root `/r`, working
directory `/r/w`, output directory `/r/w.uniq` (the default
`work_dir.with_extension("uniq")`), rename mode off. -/
def staleCfg : RunCfg := ⟨["r"], ["r", "w"], ["r", "w.uniq"], false⟩

end Uniq

set_option maxRecDepth 10000

example : Uniq.md5hex [] = "d41d8cd98f00b204e9800998ecf8427e" := by decide

example : Uniq.md5hex [97, 98, 99] = "900150983cd24fb0d6963f7d28e17f72" := by decide


namespace Uniq

/-! ### Order facts for the comparators -/

theorem lexLtB_asymm {α : Type} {ltB : α → α → Bool}
    (hasym : ∀ a b, ltB a b = true → ltB b a = false) :
    ∀ x y : List α, lexLtB ltB x y = true → lexLtB ltB y x = false := by
  intro x
  induction x with
  | nil => intro y h; cases y <;> simp [lexLtB] at h ⊢
  | cons a as ih =>
    intro y h
    cases y with
    | nil => simp [lexLtB] at h
    | cons b bs =>
      simp only [lexLtB] at h ⊢
      by_cases hab : ltB a b = true
      · simp [hasym _ _ hab, hab]
      · by_cases hba : ltB b a = true
        · simp [hab, hba] at h
        · simp only [Bool.not_eq_true] at hab hba
          simp only [hab, hba, if_false] at h ⊢
          exact ih bs h

theorem lexLtB_conn {α : Type} {ltB : α → α → Bool}
    (hconn : ∀ a b, ltB a b = false → ltB b a = false → a = b) :
    ∀ x y : List α, lexLtB ltB x y = false → lexLtB ltB y x = false → x = y := by
  intro x
  induction x with
  | nil => intro y h1 _; cases y with
    | nil => rfl
    | cons b bs => simp [lexLtB] at h1
  | cons a as ih =>
    intro y h1 h2
    cases y with
    | nil => simp [lexLtB] at h2
    | cons b bs =>
      simp only [lexLtB] at h1 h2
      by_cases hab : ltB a b = true
      · simp [hab] at h1
      · by_cases hba : ltB b a = true
        · simp [hba] at h2
        · simp only [Bool.not_eq_true] at hab hba
          simp only [hab, hba, if_false] at h1 h2
          rw [hconn a b hab hba, ih bs h1 h2]

theorem lexLtB_trans {α : Type} {ltB : α → α → Bool}
    (_hasym : ∀ a b, ltB a b = true → ltB b a = false)
    (htr : ∀ a b c, ltB a b = true → ltB b c = true → ltB a c = true)
    (hconn : ∀ a b, ltB a b = false → ltB b a = false → a = b) :
    ∀ x y z : List α, lexLtB ltB x y = true → lexLtB ltB y z = true →
      lexLtB ltB x z = true := by
  intro x
  induction x with
  | nil =>
    intro y z h1 h2
    cases z with
    | nil => cases y <;> simp [lexLtB] at h2
    | cons c cs => simp [lexLtB]
  | cons a as ih =>
    intro y z h1 h2
    cases y with
    | nil => simp [lexLtB] at h1
    | cons b bs =>
      cases z with
      | nil => simp [lexLtB] at h2
      | cons c cs =>
        simp only [lexLtB] at h1 h2 ⊢
        by_cases hab : ltB a b = true
        · by_cases hbc : ltB b c = true
          · simp [htr _ _ _ hab hbc]
          · by_cases hcb : ltB c b = true
            · simp [hcb] at h2
              exact absurd h2 hbc
            · simp only [Bool.not_eq_true] at hbc hcb
              have : b = c := hconn _ _ hbc hcb
              subst this
              simp [hab]
        · by_cases hba : ltB b a = true
          · simp [hab, hba] at h1
          · simp only [Bool.not_eq_true] at hab hba
            have : a = b := hconn _ _ hab hba
            subst this
            by_cases hac : ltB a c = true
            · simp [hac]
            · by_cases hca : ltB c a = true
              · simp [hac, hca] at h2
              · simp only [Bool.not_eq_true] at hac hca
                simp only [hab, hba, if_false] at h1
                simp only [hac, hca, if_false] at h2 ⊢
                exact ih bs cs h1 h2

theorem charLtB_asymm (a b : Char) (h : charLtB a b = true) : charLtB b a = false := by
  simp [charLtB] at h ⊢; omega

theorem charLtB_trans (a b c : Char) (h1 : charLtB a b = true)
    (h2 : charLtB b c = true) : charLtB a c = true := by
  simp [charLtB] at h1 h2 ⊢; omega

theorem charLtB_conn (a b : Char) (h1 : charLtB a b = false)
    (h2 : charLtB b a = false) : a = b := by
  simp [charLtB] at h1 h2
  have h : a.toNat = b.toNat := by omega
  have h2 := congrArg Char.ofNat h
  simpa [Char.ofNat_toNat] using h2

theorem strLtB_asymm (a b : String) (h : strLtB a b = true) : strLtB b a = false :=
  lexLtB_asymm charLtB_asymm _ _ h

theorem strLtB_trans (a b c : String) (h1 : strLtB a b = true)
    (h2 : strLtB b c = true) : strLtB a c = true :=
  lexLtB_trans charLtB_asymm charLtB_trans charLtB_conn _ _ _ h1 h2

theorem strLtB_conn (a b : String) (h1 : strLtB a b = false)
    (h2 : strLtB b a = false) : a = b := by
  have hd := lexLtB_conn charLtB_conn a.data b.data h1 h2
  cases a; cases b; exact congrArg String.mk hd

theorem pathLtB_asymm (a b : Path) (h : pathLtB a b = true) : pathLtB b a = false :=
  lexLtB_asymm strLtB_asymm _ _ h

theorem pathLtB_trans (a b c : Path) (h1 : pathLtB a b = true)
    (h2 : pathLtB b c = true) : pathLtB a c = true :=
  lexLtB_trans strLtB_asymm strLtB_trans strLtB_conn _ _ _ h1 h2

theorem pathLtB_conn (a b : Path) (h1 : pathLtB a b = false)
    (h2 : pathLtB b a = false) : a = b :=
  lexLtB_conn strLtB_conn _ _ h1 h2

instance : IsTotal Path pathLe where
  total a b := by
    unfold pathLe pathLeB
    by_cases h : pathLtB b a = true
    · exact Or.inr (by simp [pathLtB_asymm _ _ h])
    · exact Or.inl (by simp [Bool.not_eq_true] at h; simp [h])

instance : IsTrans Path pathLe where
  trans a b c h1 h2 := by
    unfold pathLe pathLeB at h1 h2 ⊢
    simp only [Bool.not_eq_true'] at h1 h2 ⊢
    by_cases hca : pathLtB c a = true
    · by_cases hbc : pathLtB b c = true
      · exact absurd (pathLtB_trans _ _ _ hbc hca) (by simp [h1])
      · simp only [Bool.not_eq_true] at hbc
        have := pathLtB_conn _ _ hbc h2
        subst this
        exact absurd hca (by simp [h1])
    · simpa using hca

instance : IsAntisymm Path pathLe where
  antisymm a b h1 h2 := by
    unfold pathLe pathLeB at h1 h2
    simp only [Bool.not_eq_true'] at h1 h2
    exact pathLtB_conn a b h2 h1

instance : IsTotal String strLe where
  total a b := by
    unfold strLe strLeB
    by_cases h : strLtB b a = true
    · exact Or.inr (by simp [strLtB_asymm _ _ h])
    · exact Or.inl (by simp [Bool.not_eq_true] at h; simp [h])

instance : IsTrans String strLe where
  trans a b c h1 h2 := by
    unfold strLe strLeB at h1 h2 ⊢
    simp only [Bool.not_eq_true'] at h1 h2 ⊢
    by_cases hca : strLtB c a = true
    · by_cases hbc : strLtB b c = true
      · exact absurd (strLtB_trans _ _ _ hbc hca) (by simp [h1])
      · simp only [Bool.not_eq_true] at hbc
        have := strLtB_conn _ _ hbc h2
        subst this
        exact absurd hca (by simp [h1])
    · simpa using hca

instance : IsAntisymm String strLe where
  antisymm a b h1 h2 := by
    unfold strLe strLeB at h1 h2
    simp only [Bool.not_eq_true'] at h1 h2
    exact strLtB_conn a b h2 h1

theorem sortPaths_perm (ps : List Path) : List.Perm (sortPaths ps) ps :=
  List.perm_insertionSort pathLe ps

theorem sortPaths_sorted (ps : List Path) : List.Sorted pathLe (sortPaths ps) :=
  List.sorted_insertionSort pathLe ps

theorem sortPaths_congr {ps qs : List Path} (h : List.Perm ps qs) :
    sortPaths ps = sortPaths qs :=
  List.eq_of_perm_of_sorted
    ((sortPaths_perm ps).trans (h.trans (sortPaths_perm qs).symm))
    (sortPaths_sorted ps) (sortPaths_sorted qs)

theorem sortPaths_idem (ps : List Path) : sortPaths (sortPaths ps) = sortPaths ps :=
  List.Sorted.insertionSort_eq (sortPaths_sorted ps)

theorem sortStrings_perm (ss : List String) : List.Perm (sortStrings ss) ss :=
  List.perm_insertionSort strLe ss

theorem sortStrings_sorted (ss : List String) : List.Sorted strLe (sortStrings ss) :=
  List.sorted_insertionSort strLe ss

theorem sortStrings_congr {ss ts : List String} (h : List.Perm ss ts) :
    sortStrings ss = sortStrings ts :=
  List.eq_of_perm_of_sorted
    ((sortStrings_perm ss).trans (h.trans (sortStrings_perm ts).symm))
    (sortStrings_sorted ss) (sortStrings_sorted ts)

end Uniq

namespace Uniq

/-! ### Facts about the chunked read loop and the digest output -/

theorem drop_len_le {α : Type} (r : α) (rs : List α) (f : Nat)
    (h : (r :: rs).length ≤ f + 1) : ((r :: rs).drop 4096).length ≤ f := by
  simp [List.length_drop] at h ⊢
  omega

theorem drop_len_lt {α : Type} (r : α) (rs : List α) :
    ((r :: rs).drop 4096).length < (r :: rs).length := by
  simp [List.length_drop]
  omega

theorem chunksOfF_congr : ∀ f1 f2 l, l.length ≤ f1 → l.length ≤ f2 →
    chunksOfF f1 l = chunksOfF f2 l := by
  intro f1
  induction f1 with
  | zero =>
    intro f2 l h1 _
    have : l = [] := List.length_eq_zero.mp (Nat.le_zero.mp h1)
    subst this
    cases f2 <;> rfl
  | succ f1 ih =>
    intro f2 l h1 h2
    cases l with
    | nil => cases f2 <;> rfl
    | cons r rs =>
      cases f2 with
      | zero => simp at h2
      | succ f2 =>
        simp only [chunksOfF]
        rw [ih f2 ((r :: rs).drop 4096) (drop_len_le r rs f1 h1) (drop_len_le r rs f2 h2)]

theorem chunksOf_cons (r : Nat) (rs : List Nat) :
    chunksOf (r :: rs) = (r :: rs).take 4096 :: chunksOf ((r :: rs).drop 4096) := by
  show chunksOfF (rs.length + 1) (r :: rs) = _
  simp only [chunksOfF]
  rw [chunksOfF_congr rs.length ((r :: rs).drop 4096).length ((r :: rs).drop 4096)
    (drop_len_le r rs rs.length (by simp)) (Nat.le_refl _)]
  rfl

theorem chunksOf_flatten (l : List Nat) : (chunksOf l).flatten = l := by
  suffices h : ∀ n l2, List.length l2 = n → (chunksOf l2).flatten = l2 from h _ l rfl
  intro n
  induction n using Nat.strong_induction_on with
  | _ n ih =>
    intro l2 hn
    cases l2 with
    | nil => rfl
    | cons r rs =>
      rw [chunksOf_cons]
      simp only [List.flatten_cons]
      rw [ih ((r :: rs).drop 4096).length (hn ▸ drop_len_lt r rs) _ rfl]
      exact List.take_append_drop 4096 (r :: rs)

theorem chunksOf_mem (l c : List Nat) (h : c ∈ chunksOf l) :
    c.length ≤ 4096 ∧ c ≠ [] := by
  suffices hs : ∀ n l2 c2, List.length l2 = n → c2 ∈ chunksOf l2 →
      List.length c2 ≤ 4096 ∧ c2 ≠ [] from hs _ l c rfl h
  intro n
  induction n using Nat.strong_induction_on with
  | _ n ih =>
    intro l2 c2 hn hmem
    cases l2 with
    | nil => simp [chunksOf, chunksOfF] at hmem
    | cons r rs =>
      rw [chunksOf_cons] at hmem
      rcases List.mem_cons.mp hmem with rfl | h2
      · constructor
        · simp [List.length_take]
        · simp [List.take]
      · exact ih ((r :: rs).drop 4096).length (hn ▸ drop_len_lt r rs) _ _ rfl h2

theorem numChunks_cons (r : Nat) (rs : List Nat) :
    numChunks (r :: rs) = numChunks ((r :: rs).drop 4096) + 1 := by
  unfold numChunks
  rw [chunksOf_cons]
  simp

theorem readChunksF_spec (fr : Option Nat) (err : String) :
    ∀ fuel i l, l.length ≤ fuel →
    readChunksF fr err fuel i l =
      (match fr with
       | some m =>
         if i ≤ m ∧ m ≤ i + numChunks l then Except.error err
         else Except.ok (chunksOf l)
       | none => Except.ok (chunksOf l)) := by
  have hnil : ∀ i, (if fr = some i then Except.error err else Except.ok ([] : List (List Nat))) =
      (match fr with
       | some m =>
         if i ≤ m ∧ m ≤ i + numChunks ([] : List Nat) then Except.error err
         else Except.ok (chunksOf ([] : List Nat))
       | none => Except.ok (chunksOf ([] : List Nat))) := by
    intro i
    cases fr with
    | none => simp [chunksOf, chunksOfF]
    | some m =>
      by_cases hm : m = i
      · subst hm
        simp [numChunks, chunksOf, chunksOfF]
      · rw [if_neg (by simp [hm] : ¬ ((some m : Option Nat) = some i))]
        have hc : ¬ (i ≤ m ∧ m ≤ i + numChunks ([] : List Nat)) := by
          simp only [numChunks, chunksOf, chunksOfF, List.length_nil]
          omega
        simp only [hc, if_false]
        rfl
  intro fuel
  induction fuel with
  | zero =>
    intro i l h
    have : l = [] := List.length_eq_zero.mp (Nat.le_zero.mp h)
    subst this
    rw [readChunksF]
    exact hnil i
  | succ fuel ih =>
    intro i l h
    cases l with
    | nil =>
      rw [readChunksF]
      exact hnil i
    | cons r rs =>
      rw [readChunksF]
      have hdrop : ((r :: rs).drop 4096).length ≤ fuel := drop_len_le r rs fuel h
      cases fr with
      | none =>
        rw [if_neg (by simp : ¬ ((none : Option Nat) = some i))]
        rw [ih (i + 1) _ hdrop]
        simp only []
        rw [chunksOf_cons]
        rfl
      | some m =>
        by_cases hm : m = i
        · subst hm
          rw [if_pos rfl]
          have hc : m ≤ m ∧ m ≤ m + numChunks (r :: rs) := by omega
          simp only [hc, and_self, if_true]
        · rw [if_neg (by simp [hm] : ¬ ((some m : Option Nat) = some i))]
          rw [ih (i + 1) _ hdrop]
          have hc : numChunks (r :: rs) = numChunks ((r :: rs).drop 4096) + 1 :=
            numChunks_cons r rs
          by_cases hcond : i + 1 ≤ m ∧ m ≤ i + 1 + numChunks ((r :: rs).drop 4096)
          · have hd : (r :: rs).drop 4096 = rs.drop 4095 := rfl
            rw [hd] at hcond
            have hc2 : i ≤ m ∧ m ≤ i + numChunks (r :: rs) := by
              rw [hd] at hc; omega
            simp [hcond.1, hcond.2, hc2, Except.map]
          · have hd : (r :: rs).drop 4096 = rs.drop 4095 := rfl
            rw [hd] at hcond
            have hc2 : ¬ (i ≤ m ∧ m ≤ i + numChunks (r :: rs)) := by
              rw [hd] at hc; omega
            simp [hcond, hc2, Except.map, chunksOf_cons, hd]

theorem readChunks_spec (fr : Option Nat) (err : String) (l : List Nat) :
    readChunks fr err l =
      (match fr with
       | some m =>
         if m ≤ numChunks l then Except.error err else Except.ok (chunksOf l)
       | none => Except.ok (chunksOf l)) := by
  unfold readChunks
  rw [readChunksF_spec fr err l.length 0 l (Nat.le_refl _)]
  cases fr with
  | none => rfl
  | some m => simp

theorem hashFile_eq (f : MFile) :
    hashFile f =
      (if f.openFail then Except.error f.errMsg
       else match f.failRead with
         | some m =>
           if m ≤ numChunks f.content then Except.error f.errMsg
           else Except.ok (md5hex f.content)
         | none => Except.ok (md5hex f.content)) := by
  unfold hashFile
  by_cases ho : f.openFail
  · simp [ho]
  · simp only [ho, if_false, Bool.false_eq_true]
    rw [readChunks_spec]
    cases hfr : f.failRead with
    | none => simp [Except.map, chunksOf_flatten]
    | some m =>
      by_cases hm : m ≤ numChunks f.content
      · simp [hm, Except.map]
      · simp [hm, Except.map, chunksOf_flatten]

theorem flatMap_pairs_length {α : Type} (g h : α → Char) (l : List α) :
    (l.flatMap (fun b => [g b, h b])).length = 2 * l.length := by
  induction l with
  | nil => rfl
  | cons x xs ih => simp [List.flatMap_cons, ih]; omega

theorem md5Bytes_length (m : List Nat) : (md5Bytes m).length = 16 := by
  simp [md5Bytes, le32]

theorem md5hex_length (m : List Nat) : (md5hex m).length = 32 := by
  show (String.mk _).length = 32
  simp only [String.length]
  rw [flatMap_pairs_length]
  rw [md5Bytes_length]

theorem hexDigit_mem (n : Nat) (h : n < 16) : hexDigit n ∈ hexChars := by
  interval_cases n <;> decide

theorem md5hex_chars (m : List Nat) (c : Char) (h : c ∈ (md5hex m).data) :
    c ∈ hexChars := by
  simp only [md5hex] at h
  rcases List.mem_flatMap.mp h with ⟨b, _, hc⟩
  rcases List.mem_cons.mp hc with rfl | hc
  · exact hexDigit_mem _ (Nat.mod_lt _ (by omega))
  · rcases List.mem_cons.mp hc with rfl | hc
    · exact hexDigit_mem _ (Nat.mod_lt _ (by omega))
    · simp at hc

end Uniq

namespace Uniq

/-! ### The walker: the explicit-stack loop and the structural descent -/

theorem iterAll_eq (stk : List (Path × List FSEntry)) :
    iterAll stk = (stk.map (fun fr => entsOut fr.1 fr.2)).flatten := by
  induction stk using iterAll.induct <;>
    simp_all [iterAll, entsOut, entryOut]

theorem walkResults_eq (root : Path) (fs : List FSEntry) :
    walkResults root fs = entsOut root fs := by
  simp [walkResults, iterAll_eq]

theorem szEntry_pos (e : FSEntry) : 1 ≤ szEntry e := by
  cases e with
  | file _ _ => simp [szEntry]
  | dir _ l => cases l <;> simp [szEntry]

theorem okPaths_append (a b : List WalkItem) :
    okPaths (a ++ b) = okPaths a ++ okPaths b := by
  simp [okPaths, List.filterMap_append]

theorem okPaths_cons_entry (p : Path) (e : FSEntry) (es : List FSEntry) :
    okPaths (entsOut p (e :: es)) = okPaths (entryOut p e) ++ okPaths (entsOut p es) := by
  rw [show entsOut p (e :: es) = entryOut p e ++ entsOut p es from rfl]
  exact okPaths_append _ _

theorem wfEntries_mem {es : List FSEntry} {e : FSEntry}
    (h : wfEntries es = true) (hm : e ∈ es) : wfEntry e = true := by
  induction es with
  | nil => simp at hm
  | cons e2 es ih =>
    rw [show wfEntries (e2 :: es) = (wfEntry e2 && wfEntries es) from rfl] at h
    rcases List.mem_cons.mp hm with rfl | hm
    · exact (Bool.and_eq_true_iff.mp h).1
    · exact ih (Bool.and_eq_true_iff.mp h).2 hm

theorem entryName_inj {es : List FSEntry} (h : nodupNames es = true)
    {e1 e2 : FSEntry} (h1 : e1 ∈ es) (h2 : e2 ∈ es)
    (he : entryName e1 = entryName e2) : e1 = e2 := by
  simp only [nodupNames, decide_eq_true_eq] at h
  exact List.inj_on_of_nodup_map h h1 h2 he

theorem FileIn_cons {e : FSEntry} {es : List FSEntry} {rel : List String}
    (h : FileIn es rel) : FileIn (e :: es) rel := by
  cases h with
  | here hm => exact .here (List.mem_cons_of_mem _ hm)
  | there hm hs => exact .there (List.mem_cons_of_mem _ hm) hs

theorem entsOut_shape : ∀ n es, szEntries es ≤ n → ∀ p q, q ∈ okPaths (entsOut p es) →
    ∃ e, e ∈ es ∧ ∃ suf : List String, q = p ++ entryName e :: suf := by
  intro n
  induction n with
  | zero =>
    intro es hsz p q hmem
    cases es with
    | nil => simp [entsOut, okPaths] at hmem
    | cons e es =>
      exfalso
      have := szEntry_pos e
      simp [szEntries] at hsz
      omega
  | succ n ih =>
    intro es hsz p q hmem
    cases es with
    | nil => simp [entsOut, okPaths] at hmem
    | cons e es =>
      rw [okPaths_cons_entry, List.mem_append] at hmem
      have hsz2 : szEntries es ≤ n := by
        have := szEntry_pos e
        simp [szEntries] at hsz
        omega
      rcases hmem with hmem | hmem
      · cases e with
        | file nm ct =>
          simp [entryOut, okPaths] at hmem
          exact ⟨.file nm ct, by simp, [], by simp [entryName, hmem]⟩
        | dir nm l =>
          cases l with
          | ok sub =>
            have hsub : szEntries sub ≤ n := by
              simp [szEntries, szEntry] at hsz
              omega
            rcases ih sub hsub (p ++ [nm]) q hmem with ⟨e2, _, suf, hq⟩
            refine ⟨.dir nm (.ok sub), by simp, entryName e2 :: suf, ?_⟩
            simpa [List.append_assoc] using hq
          | error err => simp [entryOut, okPaths] at hmem
      · rcases ih es hsz2 p q hmem with ⟨e2, he2, suf, hq⟩
        exact ⟨e2, List.mem_cons_of_mem _ he2, suf, hq⟩

theorem entsOut_mem_iff : ∀ n es, szEntries es ≤ n → ∀ p rel,
    (p ++ rel ∈ okPaths (entsOut p es)) ↔ FileIn es rel := by
  intro n
  induction n with
  | zero =>
    intro es hsz p rel
    cases es with
    | nil =>
      simp only [entsOut, okPaths, List.filterMap_nil]
      constructor
      · intro hmem; simp at hmem
      · intro hf; cases hf with
        | here hm => simp at hm
        | there hm _ => simp at hm
    | cons e es =>
      exfalso
      have := szEntry_pos e
      simp [szEntries] at hsz
      omega
  | succ n ih =>
    intro es hsz p rel
    cases es with
    | nil =>
      simp only [entsOut, okPaths, List.filterMap_nil]
      constructor
      · intro hmem; simp at hmem
      · intro hf; cases hf with
        | here hm => simp at hm
        | there hm _ => simp at hm
    | cons e es =>
      have hsz2 : szEntries es ≤ n := by
        have := szEntry_pos e
        simp [szEntries] at hsz
        omega
      rw [okPaths_cons_entry, List.mem_append]
      constructor
      · intro hmem
        rcases hmem with hmem | hmem
        · cases e with
          | file nm ct =>
            simp [entryOut, okPaths] at hmem
            subst hmem
            exact .here (List.mem_cons_self _ _)
          | dir nm l =>
            cases l with
            | ok sub =>
              have hsub : szEntries sub ≤ n := by
                simp [szEntries, szEntry] at hsz
                omega
              rcases entsOut_shape n sub hsub (p ++ [nm]) _ hmem with ⟨e2, _, suf, hq⟩
              have hrel : rel = nm :: (entryName e2 :: suf) := by
                have hq2 : p ++ rel = p ++ nm :: (entryName e2 :: suf) := by
                  simpa [List.append_assoc] using hq
                exact List.append_cancel_left hq2
              subst hrel
              have hmem2 : (p ++ [nm]) ++ (entryName e2 :: suf) ∈
                  okPaths (entsOut (p ++ [nm]) sub) := by
                have : p ++ nm :: (entryName e2 :: suf) =
                    (p ++ [nm]) ++ (entryName e2 :: suf) := by
                  simp [List.append_assoc]
                rwa [← this]
              exact .there (by simp)
                ((ih sub hsub (p ++ [nm]) (entryName e2 :: suf)).mp hmem2)
            | error err => simp [entryOut, okPaths] at hmem
        · exact FileIn_cons ((ih es hsz2 p rel).mp hmem)
      · intro hf
        cases hf with
        | here hm =>
          rcases List.mem_cons.mp hm with rfl | hm
          · exact Or.inl (by simp [entryOut, okPaths])
          · exact Or.inr ((ih es hsz2 p _).mpr (.here hm))
        | there hm hsub =>
          rename_i nm sub rest
          rcases List.mem_cons.mp hm with heq | hm
          · subst heq
            left
            have hszs : szEntries sub ≤ n := by
              simp [szEntries, szEntry] at hsz
              omega
            have hmem2 := (ih sub hszs (p ++ [nm]) rest).mpr hsub
            show p ++ nm :: rest ∈ okPaths (entsOut (p ++ [nm]) sub)
            have heq2 : p ++ nm :: rest = (p ++ [nm]) ++ rest := by
              simp
            rw [heq2]
            exact hmem2
          · exact Or.inr ((ih es hsz2 p _).mpr (.there hm hsub))

end Uniq

namespace Uniq

/-! ### Uniqueness of walked paths on a well-formed tree -/

theorem nodupNames_cons {e : FSEntry} {es : List FSEntry}
    (h : nodupNames (e :: es) = true) :
    entryName e ∉ es.map entryName ∧ nodupNames es = true := by
  simp only [nodupNames, decide_eq_true_eq, List.map_cons, List.nodup_cons] at h ⊢
  exact h

theorem entryOut_shape {e : FSEntry} {p q : Path}
    (hmem : q ∈ okPaths (entryOut p e)) :
    ∃ suf : List String, q = p ++ entryName e :: suf := by
  have hmem2 : q ∈ okPaths (entsOut p [e]) := by
    rw [okPaths_cons_entry]
    simpa [entsOut, okPaths] using hmem
  rcases entsOut_shape (szEntries [e]) [e] (Nat.le_refl _) p q hmem2 with ⟨e2, he2, suf, hq⟩
  rcases List.mem_singleton.mp he2 with rfl
  exact ⟨suf, hq⟩

theorem entsOut_nodup : ∀ n es, szEntries es ≤ n → nodupNames es = true →
    wfEntries es = true → ∀ p, (okPaths (entsOut p es)).Nodup := by
  intro n
  induction n with
  | zero =>
    intro es hsz _ _ p
    cases es with
    | nil => simp [entsOut, okPaths]
    | cons e es =>
      exfalso
      have := szEntry_pos e
      simp [szEntries] at hsz
      omega
  | succ n ih =>
    intro es hsz hnames hwf p
    cases es with
    | nil => simp [entsOut, okPaths]
    | cons e es =>
      have hsz2 : szEntries es ≤ n := by
        have := szEntry_pos e
        simp [szEntries] at hsz
        omega
      rcases nodupNames_cons hnames with ⟨hnot, hnames2⟩
      rw [show wfEntries (e :: es) = (wfEntry e && wfEntries es) from rfl,
        Bool.and_eq_true_iff] at hwf
      rw [okPaths_cons_entry, List.nodup_append]
      refine ⟨?_, ih es hsz2 hnames2 hwf.2 p, ?_⟩
      · cases e with
        | file nm ct => simp [entryOut, okPaths]
        | dir nm l =>
          cases l with
          | ok sub =>
            have hsub : szEntries sub ≤ n := by
              simp [szEntries, szEntry] at hsz
              omega
            rw [show wfEntry (.dir nm (.ok sub)) = (nodupNames sub && wfEntries sub)
              from rfl, Bool.and_eq_true_iff] at hwf
            exact ih sub hsub hwf.1.1 hwf.1.2 (p ++ [nm])
          | error err => simp [entryOut, okPaths]
      · intro q hq1 hq2
        rcases entryOut_shape hq1 with ⟨suf1, h1⟩
        rcases entsOut_shape n es hsz2 p q hq2 with ⟨e2, he2, suf2, h2⟩
        rw [h1] at h2
        have := List.append_cancel_left h2
        have hname : entryName e = entryName e2 := by
          simpa using congrArg List.head? this
        exact hnot (hname ▸ List.mem_map_of_mem entryName he2)

theorem szEntry_le_of_mem {e : FSEntry} {es : List FSEntry} (h : e ∈ es) :
    szEntry e ≤ szEntries es := by
  induction es with
  | nil => simp at h
  | cons e2 es ih =>
    rcases List.mem_cons.mp h with rfl | h
    · simp [szEntries]
    · have := ih h
      simp [szEntries]
      omega

theorem FileIn_DirIn_absurd : ∀ n es, szEntries es ≤ n → nodupNames es = true →
    wfEntries es = true → ∀ rel, FileIn es rel → DirIn es rel → False := by
  intro n
  induction n with
  | zero =>
    intro es hsz _ _ rel hf _
    cases es with
    | nil => cases hf with
      | here hm => simp at hm
      | there hm _ => simp at hm
    | cons e es =>
      have := szEntry_pos e
      simp [szEntries] at hsz
      omega
  | succ n ih =>
    intro es hsz hnames hwf rel hf hd
    cases hf with
    | here hmf =>
      cases hd with
      | here hmd =>
        rename_i nm c l
        have := entryName_inj hnames hmf hmd (by simp [entryName])
        simp at this
      | there hmd hsub =>
        cases hsub
    | there hmf hfsub =>
      rename_i nm sub rest
      cases hd with
      | here hmd => cases hfsub
      | there hmd hdsub =>
        rename_i sub2
        have heq := entryName_inj hnames hmf hmd (by simp [entryName])
        have hsubeq : sub = sub2 := by
          simpa using heq
        subst hsubeq
        have hwfe := wfEntries_mem hwf hmf
        rw [show wfEntry (.dir nm (.ok sub)) = (nodupNames sub && wfEntries sub)
          from rfl, Bool.and_eq_true_iff] at hwfe
        have hsz2 : szEntries sub ≤ n := by
          have hle := szEntry_le_of_mem hmf
          simp [szEntry] at hle
          omega
        exact ih sub hsz2 hwfe.1 hwfe.2 rest hfsub hdsub

end Uniq

namespace Uniq

/-! ### Grouping preserves the record multiset; collection and errors -/

theorem groupsPaths_cons (g : String × List Path) (gs : List (String × List Path)) :
    groupsPaths (g :: gs) = g.2 ++ groupsPaths gs := by
  simp [groupsPaths]

theorem addRecord_paths (gs : List (String × List Path)) (r : Path × String) :
    List.Perm (groupsPaths (addRecord gs r)) (groupsPaths gs ++ [r.1]) := by
  induction gs with
  | nil => simp [addRecord, groupsPaths]
  | cons g gs ih =>
    by_cases h : g.1 == r.2
    · simp only [addRecord, h, if_true]
      rw [groupsPaths_cons, groupsPaths_cons]
      simp only [List.append_assoc]
      exact List.Perm.append_left g.2 List.perm_append_comm
    · simp only [addRecord, h, Bool.false_eq_true, if_false]
      rw [groupsPaths_cons, groupsPaths_cons]
      simp only [List.append_assoc]
      exact List.Perm.append_left g.2 ih

theorem foldl_addRecord_paths : ∀ (rs : List (Path × String)) acc,
    List.Perm (groupsPaths (rs.foldl addRecord acc))
      (groupsPaths acc ++ rs.map Prod.fst) := by
  intro rs
  induction rs with
  | nil => intro acc; simp
  | cons r rs ih =>
    intro acc
    simp only [List.foldl_cons, List.map_cons]
    refine (ih (addRecord acc r)).trans ?_
    refine ((addRecord_paths acc r).append_right (rs.map Prod.fst)).trans ?_
    rw [show (groupsPaths acc ++ [r.1]) ++ rs.map Prod.fst =
      groupsPaths acc ++ r.1 :: rs.map Prod.fst by simp]

theorem buildGroups_paths (rs : List (Path × String)) :
    List.Perm (groupsPaths (buildGroups rs)) (rs.map Prod.fst) := by
  have h := foldl_addRecord_paths rs []
  simpa [groupsPaths] using h

theorem collectRecords_ok : ∀ {items : List (Except String (Path × String))}
    {rs : List (Path × String)}, collectRecords items = Except.ok rs →
    items = rs.map Except.ok := by
  intro items
  induction items with
  | nil =>
    intro rs h
    simp [collectRecords] at h
    simp [← h]
  | cons it items ih =>
    intro rs h
    cases it with
    | error e => simp [collectRecords] at h
    | ok r =>
      simp only [collectRecords] at h
      cases hc : collectRecords items with
      | error e => rw [hc] at h; simp [Except.map] at h
      | ok rs2 =>
        rw [hc] at h
        simp only [Except.map, Except.ok.injEq] at h
        subst h
        simp [ih hc]

theorem records_paths : ∀ {ws : List WalkItem} {rs : List (Path × String)},
    collectRecords (ws.map hashItem) = Except.ok rs →
    rs.map Prod.fst = okPaths ws := by
  intro ws
  induction ws with
  | nil =>
    intro rs h
    simp [collectRecords] at h
    simp [← h, okPaths]
  | cons w ws ih =>
    intro rs h
    cases w with
    | error e => simp [hashItem, collectRecords] at h
    | ok pc =>
      cases pc with
      | mk p c =>
        cases c with
        | error e => simp [hashItem, collectRecords] at h
        | ok bytes =>
          simp only [List.map_cons, hashItem, collectRecords] at h
          cases hc : collectRecords (ws.map hashItem) with
          | error e => rw [hc] at h; simp [Except.map] at h
          | ok rs2 =>
            rw [hc] at h
            simp only [Except.map, Except.ok.injEq] at h
            subst h
            simp only [List.map_cons, okPaths, List.filterMap_cons]
            rw [show okPaths ws = List.filterMap _ ws from rfl] at ih
            simp [okPaths, ih hc]

theorem collectRecords_error : ∀ {items : List (Except String (Path × String))}
    {e : String}, firstError items = some e →
    collectRecords items = Except.error e := by
  intro items
  induction items with
  | nil => intro e h; simp [firstError] at h
  | cons it items ih =>
    intro e h
    cases it with
    | error e2 =>
      simp only [firstError, Option.some.injEq] at h
      subst h
      rfl
    | ok r =>
      simp only [firstError] at h
      simp only [collectRecords, ih h, Except.map]

theorem firstError_of_mem : ∀ {items : List (Except String (Path × String))}
    {e : String}, Except.error e ∈ items → ∃ e2, firstError items = some e2 := by
  intro items
  induction items with
  | nil => intro e h; simp at h
  | cons it items ih =>
    intro e h
    cases it with
    | error e2 => exact ⟨e2, rfl⟩
    | ok r =>
      rcases List.mem_cons.mp h with heq | hmem
      · cases heq
      · exact ih hmem

end Uniq

namespace Uniq

/-! ### The classification loop, branch by branch -/

theorem pathLe_refl (p : Path) : pathLe p p := by
  unfold pathLe pathLeB
  by_cases h : pathLtB p p = true
  · have := pathLtB_asymm p p h
    rw [this] at h
    cases h
  · simp [Bool.not_eq_true] at h
    simp [h]

theorem processGroup_noWorking {cfg : RunCfg} {st : PlaceState} {g : String × List Path}
    (hw : (sortPaths g.2).filter (fun f => isWorking cfg f) = []) :
    processGroup cfg st g = st := by
  simp only [processGroup]
  rw [hw]

theorem processGroup_dup {cfg : RunCfg} {st : PlaceState} {g : String × List Path}
    {w ex : Path} {rest : List Path}
    (hw : (sortPaths g.2).filter (fun f => isWorking cfg f) = w :: rest)
    (hex : (sortPaths g.2).find? (fun f => !isWorking cfg f) = some ex) :
    processGroup cfg st g =
      { st with report :=
          st.report ++ [mkDupLine (relTo cfg.workDir w) (relTo cfg.root ex)] } := by
  simp only [processGroup]
  rw [hw, hex]

theorem processGroup_copy {cfg : RunCfg} {st : PlaceState} {g : String × List Path}
    {w : Path} {rest : List Path}
    (hw : (sortPaths g.2).filter (fun f => isWorking cfg f) = w :: rest)
    (hex : (sortPaths g.2).find? (fun f => !isWorking cfg f) = none)
    (hn : ¬ (cfg.rename = false ∧
      (if cfg.rename then g.1 ++ "_" ++ (fileName w).getD "" else (fileName w).getD "")
        ∈ st.outNames)) :
    processGroup cfg st g =
      { outNames := st.outNames ++
          [if cfg.rename then g.1 ++ "_" ++ (fileName w).getD "" else (fileName w).getD ""]
        copies := st.copies ++
          [((if cfg.rename then g.1 ++ "_" ++ (fileName w).getD "" else (fileName w).getD ""), w)]
        report := st.report ++ rest.map (fun f => mkDupLine (relTo cfg.workDir f)
          (if cfg.rename then g.1 ++ "_" ++ (fileName w).getD "" else (fileName w).getD ""))
        diags := st.diags } := by
  simp only [processGroup]
  rw [hw, hex]
  simp only [if_neg hn]

theorem processGroup_retag {cfg : RunCfg} {st : PlaceState} {g : String × List Path}
    {w : Path} {rest : List Path}
    (hw : (sortPaths g.2).filter (fun f => isWorking cfg f) = w :: rest)
    (hex : (sortPaths g.2).find? (fun f => !isWorking cfg f) = none)
    (hren : cfg.rename = false)
    (hmem : (fileName w).getD "" ∈ st.outNames) :
    processGroup cfg st g =
      { outNames := st.outNames ++ [g.1 ++ "_" ++ (fileName w).getD ""]
        copies := st.copies ++ [((g.1 ++ "_" ++ (fileName w).getD ""), w)]
        report := st.report ++ rest.map (fun f => mkDupLine (relTo cfg.workDir f)
          (g.1 ++ "_" ++ (fileName w).getD ""))
        diags := st.diags ++ [renameDiag (relTo cfg.workDir w) ((fileName w).getD "")
          (g.1 ++ "_" ++ (fileName w).getD "")] } := by
  simp only [processGroup]
  rw [hw, hex]
  simp only [hren, Bool.false_eq_true, if_false]
  rw [if_pos ⟨trivial, hmem⟩]

theorem tag_ne (h b : String) : h ++ "_" ++ b ≠ b := by
  intro he
  have hl := congrArg String.length he
  rw [String.length_append, String.length_append] at hl
  have h1 : String.length "_" = 1 := rfl
  omega

theorem copyLookup_last (copies : List (String × Path)) (n : String) (w : Path) :
    copyLookup (copies ++ [(n, w)]) n = some w := by
  simp [copyLookup, List.reverse_append, List.lookup]

theorem copyLookup_other (copies : List (String × Path)) (n n2 : String) (w : Path)
    (h : n ≠ n2) : copyLookup (copies ++ [(n2, w)]) n = copyLookup copies n := by
  simp only [copyLookup, List.reverse_append, List.reverse_cons, List.reverse_nil,
    List.nil_append, List.singleton_append, List.lookup]
  simp [beq_eq_false_iff_ne.mpr h]

end Uniq

namespace Uniq

/-! ### State-independent group contributions -/

theorem groupPure_noWorking {cfg : RunCfg} {g : String × List Path}
    (hw : (sortPaths g.2).filter (fun f => isWorking cfg f) = []) :
    groupPure cfg g = (none, []) := by
  simp only [groupPure]
  rw [hw]

theorem groupPure_dup {cfg : RunCfg} {g : String × List Path}
    {w ex : Path} {rest : List Path}
    (hw : (sortPaths g.2).filter (fun f => isWorking cfg f) = w :: rest)
    (hex : (sortPaths g.2).find? (fun f => !isWorking cfg f) = some ex) :
    groupPure cfg g = (none, [mkDupLine (relTo cfg.workDir w) (relTo cfg.root ex)]) := by
  simp only [groupPure]
  rw [hw, hex]

theorem groupPure_copy {cfg : RunCfg} {g : String × List Path}
    {w : Path} {rest : List Path}
    (hw : (sortPaths g.2).filter (fun f => isWorking cfg f) = w :: rest)
    (hex : (sortPaths g.2).find? (fun f => !isWorking cfg f) = none) :
    groupPure cfg g =
      (some ((if cfg.rename then g.1 ++ "_" ++ (fileName w).getD ""
          else (fileName w).getD ""), w),
        rest.map (fun f => mkDupLine (relTo cfg.workDir f)
          (if cfg.rename then g.1 ++ "_" ++ (fileName w).getD ""
            else (fileName w).getD ""))) := by
  simp only [groupPure]
  rw [hw, hex]

theorem processGroup_pure {cfg : RunCfg} {st : PlaceState} {g : String × List Path}
    (hn : cfg.rename = true ∨ ∀ n, groupDest cfg g = some n → n ∉ st.outNames) :
    processGroup cfg st g =
      { outNames := st.outNames ++ (((groupPure cfg g).1).map Prod.fst).toList
        copies := st.copies ++ ((groupPure cfg g).1).toList
        report := st.report ++ (groupPure cfg g).2
        diags := st.diags } := by
  cases hw : (sortPaths g.2).filter (fun f => isWorking cfg f) with
  | nil =>
    rw [processGroup_noWorking hw, groupPure_noWorking hw]
    cases st
    simp
  | cons w rest =>
    cases hex : (sortPaths g.2).find? (fun f => !isWorking cfg f) with
    | some ex =>
      rw [processGroup_dup hw hex, groupPure_dup hw hex]
      simp
    | none =>
      have hdest : groupDest cfg g =
          some (if cfg.rename then g.1 ++ "_" ++ (fileName w).getD ""
            else (fileName w).getD "") := by
        simp [groupDest, groupPure_copy hw hex]
      have hcond : ¬ (cfg.rename = false ∧
          (if cfg.rename then g.1 ++ "_" ++ (fileName w).getD ""
            else (fileName w).getD "") ∈ st.outNames) := by
        rcases hn with hn | hn
        · intro hc
          rw [hn] at hc
          cases hc.1
        · intro hc
          exact hn _ hdest hc.2
      rw [processGroup_copy hw hex hcond, groupPure_copy hw hex]
      simp

theorem processGroups_pure (cfg : RunCfg) : ∀ (gs : List (String × List Path))
    (st : PlaceState),
    (cfg.rename = true ∨ ((gs.filterMap (groupDest cfg)).Nodup ∧
      ∀ n ∈ gs.filterMap (groupDest cfg), n ∉ st.outNames)) →
    processGroups cfg gs st =
      { outNames := st.outNames ++ gs.filterMap (groupDest cfg)
        copies := st.copies ++ gs.flatMap (fun g => ((groupPure cfg g).1).toList)
        report := st.report ++ gs.flatMap (fun g => (groupPure cfg g).2)
        diags := st.diags } := by
  intro gs
  induction gs with
  | nil =>
    intro st _
    cases st
    simp [processGroups]
  | cons g gs ih =>
    intro st hn
    have hstep : processGroup cfg st g =
        { outNames := st.outNames ++ (((groupPure cfg g).1).map Prod.fst).toList
          copies := st.copies ++ ((groupPure cfg g).1).toList
          report := st.report ++ (groupPure cfg g).2
          diags := st.diags } := by
      apply processGroup_pure
      rcases hn with hn | hn
      · exact Or.inl hn
      · refine Or.inr (fun n hd => hn.2 n ?_)
        simp [List.filterMap_cons, hd]
    have hdestList : (((groupPure cfg g).1).map Prod.fst).toList =
        (groupDest cfg g).toList := by
      simp [groupDest]
    show processGroups cfg gs (processGroup cfg st g) = _
    rw [hstep, ih]
    · simp only [List.filterMap_cons, List.flatMap_cons]
      cases hd : groupDest cfg g with
      | none =>
        rw [hdestList, hd]
        simp
      | some n =>
        rw [hdestList, hd]
        simp [List.append_assoc]
    · rcases hn with hn | hn
      · exact Or.inl hn
      · refine Or.inr ⟨?_, ?_⟩
        · have := hn.1
          cases hd : groupDest cfg g with
          | none => simpa only [List.filterMap_cons, hd] using this
          | some n =>
            simp only [List.filterMap_cons, hd, List.nodup_cons] at this
            exact this.2
        · intro n hmem
          simp only [List.mem_append, hdestList]
          push_neg
          constructor
          · exact hn.2 n (by
              cases hd : groupDest cfg g with
              | none => simpa [List.filterMap_cons, hd] using hmem
              | some n2 => simp [List.filterMap_cons, hd]; right; simpa using hmem)
          · intro hc
            cases hd : groupDest cfg g with
            | none => simp [hd] at hc
            | some n2 =>
              rw [hd] at hc
              simp at hc
              subst hc
              have hnd := hn.1
              simp only [List.filterMap_cons, hd, List.nodup_cons] at hnd
              exact absurd hmem hnd.1

end Uniq

namespace Uniq

/-! ### Permutation invariance of the classification loop -/

theorem groupPure_norm (cfg : RunCfg) (g : String × List Path) :
    groupPure cfg g = groupPure cfg (normG g) := by
  simp only [groupPure, normG, sortPaths_idem]


theorem groupDest_norm (cfg : RunCfg) (g : String × List Path) :
    groupDest cfg g = groupDest cfg (normG g) := by
  simp only [groupDest]
  rw [← groupPure_norm]

theorem lookup_perm_nodup : ∀ {l1 l2 : List (String × Path)},
    List.Perm l1 l2 → (l1.map Prod.fst).Nodup → ∀ n, l1.lookup n = l2.lookup n := by
  intro l1 l2 h
  induction h with
  | nil => intro _ _; rfl
  | cons a h ih =>
    intro hnd n
    cases a with
    | mk k v =>
      by_cases hk : n == k
      · simp [List.lookup, hk]
      · simp only [List.lookup, hk]
        exact ih (by simpa using (List.nodup_cons.mp (by simpa using hnd)).2) n
  | swap a b t =>
    intro hnd n
    cases a with
    | mk k1 v1 =>
      cases b with
      | mk k2 v2 =>
        have hne : k2 ≠ k1 := by
          simp only [List.map_cons, List.nodup_cons, List.mem_cons] at hnd
          exact fun hc => hnd.1 (Or.inl hc)
        by_cases h1 : n == k2
        · have h2 : (n == k1) = false := by
            simp only [beq_iff_eq] at h1
            subst h1
            exact beq_eq_false_iff_ne.mpr hne
          simp [List.lookup, h1, h2]
        · by_cases h2 : n == k1
          · simp [List.lookup, h1, h2]
          · simp [List.lookup, h1, h2]
  | trans h1 h2 ih1 ih2 =>
    intro hnd n
    rw [ih1 hnd n, ih2 ((h1.map Prod.fst).nodup_iff.mp hnd) n]


theorem copies_names (cfg : RunCfg) : ∀ gs : List (String × List Path),
    (gs.flatMap (fun g => ((groupPure cfg g).1).toList)).map Prod.fst =
      gs.filterMap (groupDest cfg) := by
  intro gs
  induction gs with
  | nil => rfl
  | cons g gs ih =>
    simp only [List.flatMap_cons, List.map_append, ih, List.filterMap_cons]
    cases hd : (groupPure cfg g).1 with
    | none => simp [groupDest, hd]
    | some nw => simp [groupDest, hd]

theorem flatMap_norm {β : Type} (_cfg : RunCfg) (gs : List (String × List Path))
    (f : (String × List Path) → List β)
    (hf : ∀ g, f g = f (normG g)) :
    gs.flatMap f = (gs.map normG).flatMap f := by
  rw [List.flatMap_map]
  congr 1
  funext g
  exact hf g


theorem processGroups_perm_core (cfg : RunCfg) {gs1 gs2 : List (String × List Path)}
    (hperm : List.Perm (gs1.map normG) (gs2.map normG))
    (hnd : (gs1.filterMap (groupDest cfg)).Nodup) :
    finalReport (processGroups cfg gs1 ⟨[], [], [], []⟩) =
      finalReport (processGroups cfg gs2 ⟨[], [], [], []⟩) ∧
    ∀ n, copyLookup (processGroups cfg gs1 ⟨[], [], [], []⟩).copies n =
      copyLookup (processGroups cfg gs2 ⟨[], [], [], []⟩).copies n := by
  have hdest_eq : ∀ gs : List (String × List Path),
      gs.filterMap (groupDest cfg) = (gs.map normG).filterMap (groupDest cfg) := by
    intro gs
    rw [List.filterMap_map]
    congr 1
    funext g
    exact groupDest_norm cfg g
  have hdests : List.Perm (gs1.filterMap (groupDest cfg))
      (gs2.filterMap (groupDest cfg)) := by
    rw [hdest_eq gs1, hdest_eq gs2]
    exact hperm.filterMap _
  have hnd2 : (gs2.filterMap (groupDest cfg)).Nodup := hdests.nodup_iff.mp hnd
  have h1 := processGroups_pure cfg gs1 ⟨[], [], [], []⟩
    (Or.inr ⟨hnd, fun n hn => by simp⟩)
  have h2 := processGroups_pure cfg gs2 ⟨[], [], [], []⟩
    (Or.inr ⟨hnd2, fun n hn => by simp⟩)
  have hlines : List.Perm (gs1.flatMap (fun g => (groupPure cfg g).2))
      (gs2.flatMap (fun g => (groupPure cfg g).2)) := by
    rw [flatMap_norm cfg gs1 _ (fun g => by rw [groupPure_norm]),
      flatMap_norm cfg gs2 _ (fun g => by rw [groupPure_norm])]
    exact hperm.flatMap_right _
  have hcopies : List.Perm (gs1.flatMap (fun g => ((groupPure cfg g).1).toList))
      (gs2.flatMap (fun g => ((groupPure cfg g).1).toList)) := by
    rw [flatMap_norm cfg gs1 _ (fun g => by rw [groupPure_norm]),
      flatMap_norm cfg gs2 _ (fun g => by rw [groupPure_norm])]
    exact hperm.flatMap_right _
  constructor
  · rw [h1, h2]
    simp only [finalReport]
    exact sortStrings_congr (by simpa using hlines)
  · intro n
    rw [h1, h2]
    simp only [copyLookup, List.nil_append]
    have hrev : List.Perm (gs1.flatMap (fun g => ((groupPure cfg g).1).toList)).reverse
        (gs2.flatMap (fun g => ((groupPure cfg g).1).toList)).reverse :=
      ((List.reverse_perm _).trans hcopies).trans (List.reverse_perm _).symm
    have hndrev : ((gs1.flatMap (fun g => ((groupPure cfg g).1).toList)).reverse.map
        Prod.fst).Nodup := by
      rw [List.map_reverse, copies_names]
      exact List.nodup_reverse.mpr hnd
    exact lookup_perm_nodup hrev hndrev n




theorem lookup_cons_hit {β : Type} {k2 : String} {v : β} {es : List (String × β)}
    {k : String} (h : k = k2) : ((k2, v) :: es).lookup k = some v := by
  subst h
  exact List.lookup_cons_self

theorem lookup_cons_miss {β : Type} {k2 : String} {v : β} {es : List (String × β)}
    {k : String} (h : ¬ k = k2) : ((k2, v) :: es).lookup k = es.lookup k := by
  simp [List.lookup_cons, beq_eq_false_iff_ne.mpr h]

theorem addRecord_lookup_hit : ∀ (gs : List (String × List Path)) (r : Path × String),
    (addRecord gs r).lookup r.2 = some (((gs.lookup r.2).getD []) ++ [r.1]) := by
  intro gs r
  induction gs with
  | nil => simp [addRecord, lookup_cons_hit rfl]
  | cons g gs ih =>
    cases g with
    | mk gk gv =>
      by_cases h : gk == r.2
      · have he : gk = r.2 := beq_iff_eq.mp h
        simp only [addRecord, h, if_true]
        rw [lookup_cons_hit he.symm, lookup_cons_hit he.symm]
        rfl
      · have he : ¬ (r.2 = gk) := fun hc => absurd (beq_iff_eq.mpr hc.symm) h
        simp only [addRecord, h, Bool.false_eq_true, if_false]
        rw [lookup_cons_miss he, lookup_cons_miss he]
        exact ih

theorem addRecord_lookup_miss : ∀ (gs : List (String × List Path)) (r : Path × String)
    (k : String), k ≠ r.2 → (addRecord gs r).lookup k = gs.lookup k := by
  intro gs r k hk
  induction gs with
  | nil => simp [addRecord, lookup_cons_miss hk]
  | cons g gs ih =>
    cases g with
    | mk gk gv =>
      by_cases h : gk == r.2
      · have he : gk = r.2 := beq_iff_eq.mp h
        have hkg : ¬ k = gk := fun hc => hk (hc.trans he)
        simp only [addRecord, h, if_true]
        rw [lookup_cons_miss hkg, lookup_cons_miss hkg]
      · by_cases hkg : k = gk
        · simp only [addRecord, h, Bool.false_eq_true, if_false]
          rw [lookup_cons_hit hkg, lookup_cons_hit hkg]
        · simp only [addRecord, h, Bool.false_eq_true, if_false]
          rw [lookup_cons_miss hkg, lookup_cons_miss hkg]
          exact ih

theorem lookup_none_keys : ∀ (l : List (String × List Path)) (k : String),
    l.lookup k = none ↔ k ∉ l.map Prod.fst := by
  intro l k
  induction l with
  | nil => simp
  | cons g l ih =>
    cases g with
    | mk gk gv =>
      by_cases h : k = gk
      · rw [lookup_cons_hit h]
        simp [h]
      · rw [lookup_cons_miss h]
        simp only [List.map_cons, List.mem_cons, ih]
        constructor
        · intro hn hc
          rcases hc with hc | hc
          · exact h hc
          · exact hn hc
        · intro hn hc
          exact hn (Or.inr hc)

theorem lookup_mem : ∀ (l : List (String × List Path)) (k : String) (v : List Path),
    l.lookup k = some v → (k, v) ∈ l := by
  intro l
  induction l with
  | nil => intro k v h; simp at h
  | cons g l ih =>
    intro k v h
    cases g with
    | mk k2 v2 =>
      by_cases hk : k = k2
      · rw [lookup_cons_hit hk] at h
        simp only [Option.some.injEq] at h
        subst hk
        subst h
        exact List.mem_cons_self _ _
      · rw [lookup_cons_miss hk] at h
        exact List.mem_cons_of_mem _ (ih k v h)

theorem lookup_append_mid : ∀ (a b : List (String × List Path)) (k : String)
    (v : List Path) (k2 : String), k2 ≠ k →
    ((a ++ (k, v) :: b).lookup k2) = (a ++ b).lookup k2 := by
  intro a b k v k2 hk
  induction a with
  | nil =>
    simp only [List.nil_append]
    exact lookup_cons_miss hk
  | cons g a ih =>
    cases g with
    | mk gk gv =>
      by_cases hkg : k2 = gk
      · rw [List.cons_append, List.cons_append, lookup_cons_hit hkg, lookup_cons_hit hkg]
      · rw [List.cons_append, List.cons_append, lookup_cons_miss hkg, lookup_cons_miss hkg]
        exact ih

theorem assoc_perm_of_lookup : ∀ {l1 l2 : List (String × List Path)},
    (l1.map Prod.fst).Nodup → (l2.map Prod.fst).Nodup →
    (∀ k, l1.lookup k = l2.lookup k) → List.Perm l1 l2 := by
  intro l1
  induction l1 with
  | nil =>
    intro l2 _ _ hlook
    cases l2 with
    | nil => exact List.Perm.refl _
    | cons g l2 =>
      exfalso
      cases g with
      | mk gk gv =>
        have h := (hlook gk).symm
        rw [lookup_cons_hit rfl] at h
        simp at h
  | cons g t1 ih =>
    intro l2 hnd1 hnd2 hlook
    cases g with
    | mk k v =>
      have hl2 : l2.lookup k = some v := by
        rw [← hlook k, lookup_cons_hit rfl]
      have hmem : (k, v) ∈ l2 := lookup_mem l2 k v hl2
      rcases List.append_of_mem hmem with ⟨a, b, hsplit⟩
      subst hsplit
      have hmid : List.Perm (a ++ (k, v) :: b) ((k, v) :: (a ++ b)) :=
        List.perm_middle
      have hknot1 : k ∉ t1.map Prod.fst := by
        have := hnd1
        simp only [List.map_cons, List.nodup_cons] at this
        exact this.1
      have hknotab : k ∉ (a ++ b).map Prod.fst := by
        have h2 := hnd2
        rw [List.map_append, List.map_cons] at h2
        intro hc
        rw [List.map_append, List.mem_append] at hc
        rcases hc with hc | hc
        · exact (List.nodup_append.mp h2).2.2 hc (List.mem_cons_self _ _)
        · have hkb := (List.nodup_append.mp h2).2.1
          exact (List.nodup_cons.mp hkb).1 hc
      refine List.Perm.trans (List.Perm.cons (k, v) (ih ?_ ?_ ?_)) hmid.symm
      · have := hnd1
        simp only [List.map_cons, List.nodup_cons] at this
        exact this.2
      · have h2 := hnd2
        rw [List.map_append, List.map_cons] at h2
        rw [List.map_append]
        rcases List.nodup_append.mp h2 with ⟨ha, hkb, hdisj⟩
        rw [List.nodup_append]
        refine ⟨ha, (List.nodup_cons.mp hkb).2, ?_⟩
        intro x hx hxb
        exact hdisj hx (List.mem_cons_of_mem _ hxb)
      · intro k2
        by_cases hk2 : k2 = k
        · subst hk2
          rw [(lookup_none_keys _ _).mpr hknot1, (lookup_none_keys _ _).mpr hknotab]
        · have h1 : t1.lookup k2 = ((k, v) :: t1).lookup k2 :=
            (lookup_cons_miss hk2).symm
          rw [h1, hlook k2]
          exact lookup_append_mid a b k v k2 hk2


theorem buildGroups_concat (rs : List (Path × String)) (r : Path × String) :
    buildGroups (rs ++ [r]) = addRecord (buildGroups rs) r := by
  simp [buildGroups, List.foldl_append]

theorem addRecord_keys (gs : List (String × List Path)) (r : Path × String) :
    (addRecord gs r).map Prod.fst =
      (if r.2 ∈ gs.map Prod.fst then gs.map Prod.fst else gs.map Prod.fst ++ [r.2]) := by
  induction gs with
  | nil => simp [addRecord]
  | cons g gs ih =>
    cases g with
    | mk gk gv =>
      by_cases h : gk == r.2
      · have he : gk = r.2 := beq_iff_eq.mp h
        subst he
        simp [addRecord, h]
      · have he : ¬ (r.2 = gk) := fun hc => absurd (beq_iff_eq.mpr hc.symm) h
        simp only [addRecord, h, Bool.false_eq_true, if_false, List.map_cons, ih]
        by_cases hm : r.2 ∈ gs.map Prod.fst
        · rw [if_pos hm, if_pos (by simp [hm])]
        · rw [if_neg hm, if_neg (by simp [hm, he])]
          rfl

theorem addRecord_keys_nodup (gs : List (String × List Path)) (r : Path × String)
    (h : (gs.map Prod.fst).Nodup) : ((addRecord gs r).map Prod.fst).Nodup := by
  rw [addRecord_keys]
  by_cases hm : r.2 ∈ gs.map Prod.fst
  · rw [if_pos hm]; exact h
  · rw [if_neg hm]
    rw [List.nodup_append]
    exact ⟨h, List.nodup_singleton _, by
      intro x hx hxr
      rw [List.mem_singleton.mp hxr] at hx
      exact hm hx⟩

theorem buildGroups_keys_nodup (rs : List (Path × String)) :
    ((buildGroups rs).map Prod.fst).Nodup := by
  induction rs using List.reverseRecOn with
  | nil => simp [buildGroups]
  | append_singleton rs r ih =>
    rw [buildGroups_concat]
    exact addRecord_keys_nodup _ _ ih

theorem buildGroups_keys_mem (rs : List (Path × String)) : ∀ k : String,
    k ∈ (buildGroups rs).map Prod.fst ↔ k ∈ rs.map Prod.snd := by
  induction rs using List.reverseRecOn with
  | nil => intro k; simp [buildGroups]
  | append_singleton rs r ih =>
    intro k
    rw [buildGroups_concat, addRecord_keys]
    by_cases hm : r.2 ∈ (buildGroups rs).map Prod.fst
    · rw [if_pos hm]
      rw [ih r.2] at hm
      rw [ih k]
      simp only [List.map_append, List.mem_append, List.map_cons, List.map_nil,
        List.mem_singleton]
      constructor
      · exact fun h => Or.inl h
      · intro h
        rcases h with h | h
        · exact h
        · rw [h]; exact hm
    · rw [if_neg hm]
      simp only [List.mem_append, List.mem_singleton, ih k, List.map_append,
        List.map_cons, List.map_nil]

theorem buildGroups_lookup (rs : List (Path × String)) (k : String) :
    (buildGroups rs).lookup k =
      (if k ∈ rs.map Prod.snd
       then some ((rs.filter (fun r => r.2 == k)).map Prod.fst)
       else none) := by
  induction rs using List.reverseRecOn with
  | nil => simp [buildGroups]
  | append_singleton rs r ih =>
    rw [buildGroups_concat]
    by_cases hk : k = r.2
    · subst hk
      rw [addRecord_lookup_hit, ih]
      by_cases hm : r.2 ∈ rs.map Prod.snd
      · rw [if_pos hm, if_pos (by simp)]
        simp only [Option.getD_some, List.filter_append, List.map_append]
        congr 2
        simp
      · rw [if_neg hm, if_pos (by simp)]
        simp only [Option.getD_none, List.nil_append, List.filter_append]
        have hnil : rs.filter (fun r2 => r2.2 == r.2) = [] := by
          rw [List.filter_eq_nil_iff]
          intro a ha hc
          exact hm (by
            have ha2 : a.2 = r.2 := beq_iff_eq.mp hc
            rw [← ha2]
            exact List.mem_map_of_mem Prod.snd ha)
        rw [hnil]
        simp
    · rw [addRecord_lookup_miss _ _ _ hk, ih]
      have hmm : k ∈ (rs ++ [r]).map Prod.snd ↔ k ∈ rs.map Prod.snd := by
        simp only [List.map_append, List.mem_append, List.map_cons, List.map_nil,
          List.mem_singleton]
        constructor
        · intro h
          rcases h with h | h
          · exact h
          · exact absurd h hk
        · exact fun h => Or.inl h
      by_cases hm : k ∈ rs.map Prod.snd
      · rw [if_pos hm, if_pos (hmm.mpr hm)]
        congr 1
        simp only [List.filter_append, List.map_append]
        have : List.filter (fun r2 => r2.2 == k) [r] = [] := by
          simp [beq_eq_false_iff_ne.mpr (fun hc => hk hc.symm)]
        rw [this]
        simp
      · rw [if_neg hm, if_neg (fun hc => hm (hmm.mp hc))]

theorem lookup_map_normG : ∀ (gs : List (String × List Path)) (k : String),
    (gs.map normG).lookup k = (gs.lookup k).map sortPaths := by
  intro gs k
  induction gs with
  | nil => simp
  | cons g gs ih =>
    cases g with
    | mk gk gv =>
      by_cases h : k = gk
      · rw [List.map_cons, show normG (gk, gv) = (gk, sortPaths gv) from rfl,
          lookup_cons_hit h, lookup_cons_hit h]
        rfl
      · rw [List.map_cons, show normG (gk, gv) = (gk, sortPaths gv) from rfl,
          lookup_cons_miss h, lookup_cons_miss h]
        exact ih

theorem map_normG_keys (gs : List (String × List Path)) :
    (gs.map normG).map Prod.fst = gs.map Prod.fst := by
  rw [List.map_map]
  rfl

theorem buildGroups_perm {rs1 rs2 : List (Path × String)} (h : List.Perm rs1 rs2) :
    List.Perm ((buildGroups rs1).map normG) ((buildGroups rs2).map normG) := by
  apply assoc_perm_of_lookup
  · rw [map_normG_keys]; exact buildGroups_keys_nodup rs1
  · rw [map_normG_keys]; exact buildGroups_keys_nodup rs2
  · intro k
    rw [lookup_map_normG, lookup_map_normG, buildGroups_lookup, buildGroups_lookup]
    by_cases hk : k ∈ rs1.map Prod.snd
    · have hk2 : k ∈ rs2.map Prod.snd := ((h.map Prod.snd).mem_iff).mp hk
      rw [if_pos hk, if_pos hk2]
      have hp : List.Perm ((rs1.filter (fun r => r.2 == k)).map Prod.fst)
          ((rs2.filter (fun r => r.2 == k)).map Prod.fst) := (h.filter _).map _
      exact congrArg some (sortPaths_congr hp)
    · have hk2 : k ∉ rs2.map Prod.snd := fun hc => hk (((h.map Prod.snd).mem_iff).mpr hc)
      rw [if_neg hk, if_neg hk2]

end Uniq

namespace Uniq

/-! ### Whole-pipeline facts -/

theorem runMain_error_of_firstError {cfg : RunCfg} {fs fs1 : List FSEntry}
    {outerNames : List String} {rel : List String} {e : String}
    (hrel : stripDir cfg.root cfg.outDir = some rel)
    (hcd : createDirAll fs rel = Except.ok fs1)
    (herr : firstError ((walkResults cfg.root fs1).map hashItem) = some e) :
    runMain cfg fs outerNames = Except.error e := by
  unfold runMain
  rw [hrel]
  simp only []
  rw [hcd]
  simp only []
  rw [collectRecords_error herr]
  rfl

theorem stale_strip : stripDir staleCfg.root staleCfg.outDir = some ["w.uniq"] := rfl

theorem stale_create (c : List Nat) :
    createDirAll (staleFS c) ["w.uniq"] = Except.ok (staleFS c) := rfl

theorem stale_walk (c : List Nat) :
    walkResults staleCfg.root (staleFS c) =
      [Except.ok ((["r", "w", "a.txt"] : Path), Except.ok c),
       Except.ok ((["r", "w.uniq", "old.txt"] : Path), Except.ok c)] := by
  rw [walkResults_eq]
  rfl

theorem stale_groups (c : List Nat) :
    buildGroups [((["r", "w", "a.txt"] : Path), md5hex c),
      ((["r", "w.uniq", "old.txt"] : Path), md5hex c)] =
      [(md5hex c, [["r", "w", "a.txt"], ["r", "w.uniq", "old.txt"]])] := by
  simp [buildGroups, addRecord]

theorem stale_run (c : List Nat) :
    runMain staleCfg (staleFS c) [] =
      Except.ok ⟨["old.txt"], [], ["a.txt = w.uniq/old.txt"], []⟩ := by
  unfold runMain
  rw [stale_strip]
  simp only []
  rw [stale_create c]
  simp only []
  rw [stale_walk c]
  rw [show (([Except.ok ((["r", "w", "a.txt"] : Path), Except.ok c),
       Except.ok ((["r", "w.uniq", "old.txt"] : Path), Except.ok c)] :
       List WalkItem).map hashItem) =
    [Except.ok ((["r", "w", "a.txt"] : Path), md5hex c),
     Except.ok ((["r", "w.uniq", "old.txt"] : Path), md5hex c)] from rfl]
  rw [show collectRecords [Except.ok ((["r", "w", "a.txt"] : Path), md5hex c),
     Except.ok ((["r", "w.uniq", "old.txt"] : Path), md5hex c)] =
    Except.ok [((["r", "w", "a.txt"] : Path), md5hex c),
      ((["r", "w.uniq", "old.txt"] : Path), md5hex c)] from rfl]
  simp only [Except.map]
  rw [stale_groups c]
  have hstep := @processGroup_dup staleCfg ⟨["old.txt"], [], [], []⟩
    (md5hex c, [["r", "w", "a.txt"], ["r", "w.uniq", "old.txt"]])
    ["r", "w", "a.txt"] ["r", "w.uniq", "old.txt"] [] rfl rfl
  show Except.ok (processGroups staleCfg _
    ⟨namesAt (staleFS c) ["w.uniq"], [], [], []⟩) = _
  rw [show namesAt (staleFS c) ["w.uniq"] = ["old.txt"] from rfl]
  rw [show processGroups staleCfg
      [(md5hex c, [["r", "w", "a.txt"], ["r", "w.uniq", "old.txt"]])]
      ⟨["old.txt"], [], [], []⟩ =
    processGroup staleCfg ⟨["old.txt"], [], [], []⟩
      (md5hex c, [["r", "w", "a.txt"], ["r", "w.uniq", "old.txt"]]) from rfl]
  rw [hstep]
  rfl

end Uniq

namespace Uniq

/-! ### Shared fact: a group whose members are all working files -/

theorem allWorking_filter_find (cfg : RunCfg) (g : String × List Path)
    (hall : ∀ p ∈ g.2, isWorking cfg p = true) :
    (sortPaths g.2).filter (fun f => isWorking cfg f) = sortPaths g.2 ∧
    (sortPaths g.2).find? (fun f => !isWorking cfg f) = none := by
  have hallS : ∀ p ∈ sortPaths g.2, isWorking cfg p = true := fun p hp =>
    hall p ((sortPaths_perm g.2).mem_iff.mp hp)
  constructor
  · exact List.filter_eq_self.mpr hallS
  · rw [List.find?_eq_none]
    intro a ha
    simp [hallS a ha]

/-! ### The claims -/

/-- C1, counterexample: in the spec's own scenario — working `a.txt` and
`b.txt` and external `other/c.txt`, all byte-identical — the report the
code produces contains only `a.txt = other/c.txt`; the claimed line
`b.txt = other/c.txt` is absent (though, as claimed, nothing is copied),
so not every working file of the group is recorded. -/
theorem c1_counterexample :
    (processGroups ⟨["r"], ["r", "w"], ["r", "o"], false⟩
      [("h", [["r", "w", "a.txt"], ["r", "w", "b.txt"], ["r", "other", "c.txt"]])]
      ⟨[], [], [], []⟩).report = ["a.txt = other/c.txt"] ∧
    "b.txt = other/c.txt" ∉
      (processGroups ⟨["r"], ["r", "w"], ["r", "o"], false⟩
        [("h", [["r", "w", "a.txt"], ["r", "w", "b.txt"], ["r", "other", "c.txt"]])]
        ⟨[], [], [], []⟩).report ∧
    (processGroups ⟨["r"], ["r", "w"], ["r", "o"], false⟩
      [("h", [["r", "w", "a.txt"], ["r", "w", "b.txt"], ["r", "other", "c.txt"]])]
      ⟨[], [], [], []⟩).copies = [] := by
  decide

/-- C1 (amended): for every fingerprint group holding at least one working
file and at least one non-working file, the code records exactly one
duplicate line — the sorted-first working file against the sorted-first
non-working file — copies nothing from the group, and leaves the other
working files unrecorded. -/
theorem c1_theorem (cfg : RunCfg) (st : PlaceState) (g : String × List Path)
    (w0 ex0 : Path) (hw0 : w0 ∈ g.2) (hww : isWorking cfg w0 = true)
    (hex0 : ex0 ∈ g.2) (hexw : isWorking cfg ex0 = false) :
    ∃ w ex, ((sortPaths g.2).filter (fun f => isWorking cfg f)).head? = some w ∧
      (sortPaths g.2).find? (fun f => !isWorking cfg f) = some ex ∧
      processGroup cfg st g =
        { st with report :=
            st.report ++ [mkDupLine (relTo cfg.workDir w) (relTo cfg.root ex)] } := by
  have hmemS : w0 ∈ sortPaths g.2 := (sortPaths_perm g.2).mem_iff.mpr hw0
  have hmemF : w0 ∈ (sortPaths g.2).filter (fun f => isWorking cfg f) :=
    List.mem_filter.mpr ⟨hmemS, hww⟩
  rcases List.exists_cons_of_ne_nil (List.ne_nil_of_mem hmemF) with ⟨w, rest, hw⟩
  have hexS : ex0 ∈ sortPaths g.2 := (sortPaths_perm g.2).mem_iff.mpr hex0
  have hfind : ((sortPaths g.2).find? (fun f => !isWorking cfg f)).isSome := by
    rw [List.find?_isSome]
    exact ⟨ex0, hexS, by simp [hexw]⟩
  rcases Option.isSome_iff_exists.mp hfind with ⟨ex, hex⟩
  exact ⟨w, ex, by rw [hw]; rfl, hex, processGroup_dup hw hex⟩

/-- C1 witness: the amended statement evaluated on a two-member group. -/
theorem c1_witness :
    processGroup ⟨["r"], ["r", "w"], ["r", "o"], false⟩ ⟨[], [], [], []⟩
      ("h", [["r", "w", "a.txt"], ["r", "other", "c.txt"]]) =
      { outNames := [], copies := [], report := ["a.txt = other/c.txt"], diags := [] } := by
  rcases c1_theorem ⟨["r"], ["r", "w"], ["r", "o"], false⟩ ⟨[], [], [], []⟩
      ("h", [["r", "w", "a.txt"], ["r", "other", "c.txt"]]) ["r", "w", "a.txt"]
      ["r", "other", "c.txt"] (by decide) (by decide) (by decide) (by decide)
    with ⟨w, ex, hw, hex, hpg⟩
  have h1 : some w = some (["r", "w", "a.txt"] : Path) := by
    rw [← hw]; decide
  have h2 : some ex = some (["r", "other", "c.txt"] : Path) := by
    rw [← hex]; decide
  injection h1 with h1
  injection h2 with h2
  subst h1
  subst h2
  rw [hpg]
  decide

/-- C2, counterexample: working files `a/b.txt` and `a-b/c.txt` share a
fingerprint and no external copy exists.  Sorted by full path string the
first is `/r/w/a-b/c.txt` (`-` sorts before `/`), but the code sorts
`PathBuf`s componentwise and copies `/r/w/a/b.txt` instead — the
representative is not the lexicographically first by full path string. -/
theorem c2_counterexample :
    (processGroups ⟨["r"], ["r", "w"], ["r", "o"], false⟩
      [("h", [["r", "w", "a", "b.txt"], ["r", "w", "a-b", "c.txt"]])]
      ⟨[], [], [], []⟩).copies = [("b.txt", ["r", "w", "a", "b.txt"])] ∧
    specStringFirst [["r", "w", "a", "b.txt"], ["r", "w", "a-b", "c.txt"]] =
      some ["r", "w", "a-b", "c.txt"] ∧
    (["r", "w", "a", "b.txt"] : Path) ≠ ["r", "w", "a-b", "c.txt"] := by
  decide

/-- C2 (amended): in an all-working group, exactly one file — the first in
Rust path order, i.e. componentwise lexicographic order — is copied; it is
a lower bound of the whole group in that order, every other member is
reported against the output basename actually used, and the outcome is
invariant under permutations of the group's member list (enumeration and
hashing completion order). -/
theorem c2_theorem (cfg : RunCfg) (st : PlaceState) (g : String × List Path)
    (hne : g.2 ≠ []) (hall : ∀ p ∈ g.2, isWorking cfg p = true) :
    ∃ w rest n, sortPaths g.2 = w :: rest ∧ (∀ p ∈ g.2, pathLe w p) ∧
      (processGroup cfg st g).copies = st.copies ++ [(n, w)] ∧
      (processGroup cfg st g).report =
        st.report ++ rest.map (fun f => mkDupLine (relTo cfg.workDir f) n) ∧
      (processGroup cfg st g).outNames = st.outNames ++ [n] ∧
      (∀ ps2, List.Perm g.2 ps2 →
        processGroup cfg st (g.1, ps2) = processGroup cfg st g) := by
  rcases allWorking_filter_find cfg g hall with ⟨hfilter, hfind⟩
  have hneS : sortPaths g.2 ≠ [] := by
    intro hc
    exact hne (List.Perm.eq_nil ((sortPaths_perm g.2).symm.trans (hc ▸ List.Perm.refl _)))
  rcases List.exists_cons_of_ne_nil hneS with ⟨w, rest, hsort⟩
  have hw : (sortPaths g.2).filter (fun f => isWorking cfg f) = w :: rest := by
    rw [hfilter, hsort]
  have hmin : ∀ p ∈ g.2, pathLe w p := by
    intro p hp
    have hpS : p ∈ sortPaths g.2 := (sortPaths_perm g.2).mem_iff.mpr hp
    rw [hsort] at hpS
    rcases List.mem_cons.mp hpS with rfl | hp2
    · exact pathLe_refl p
    · have hs := sortPaths_sorted g.2
      rw [hsort] at hs
      exact (List.sorted_cons.mp hs).1 p hp2
  have hperm : ∀ ps2, List.Perm g.2 ps2 →
      processGroup cfg st (g.1, ps2) = processGroup cfg st g := by
    intro ps2 hp
    simp only [processGroup]
    rw [show sortPaths ps2 = sortPaths g.2 from sortPaths_congr hp.symm]
  by_cases hcond : cfg.rename = false ∧
      (if cfg.rename then g.1 ++ "_" ++ (fileName w).getD ""
        else (fileName w).getD "") ∈ st.outNames
  · obtain ⟨hren, hmem0⟩ := hcond
    have hmem : (fileName w).getD "" ∈ st.outNames := by
      rw [hren] at hmem0
      simpa using hmem0
    refine ⟨w, rest, g.1 ++ "_" ++ (fileName w).getD "", hsort, hmin, ?_, ?_, ?_, hperm⟩
    · rw [processGroup_retag hw hfind hren hmem]
    · rw [processGroup_retag hw hfind hren hmem]
    · rw [processGroup_retag hw hfind hren hmem]
  · refine ⟨w, rest,
      (if cfg.rename then g.1 ++ "_" ++ (fileName w).getD "" else (fileName w).getD ""),
      hsort, hmin, ?_, ?_, ?_, hperm⟩
    · rw [processGroup_copy hw hfind hcond]
    · rw [processGroup_copy hw hfind hcond]
    · rw [processGroup_copy hw hfind hcond]

/-- C2 witness: the amended statement instantiated on a two-member group. -/
theorem c2_witness :
    ∃ w rest n, sortPaths [["r", "w", "b.txt"], ["r", "w", "a.txt"]] = w :: rest ∧
      (∀ p ∈ ([["r", "w", "b.txt"], ["r", "w", "a.txt"]] : List Path), pathLe w p) ∧
      (processGroup ⟨["r"], ["r", "w"], ["r", "o"], false⟩ ⟨[], [], [], []⟩
        ("h", [["r", "w", "b.txt"], ["r", "w", "a.txt"]])).copies = [] ++ [(n, w)] ∧
      (processGroup ⟨["r"], ["r", "w"], ["r", "o"], false⟩ ⟨[], [], [], []⟩
        ("h", [["r", "w", "b.txt"], ["r", "w", "a.txt"]])).report =
        [] ++ rest.map (fun f => mkDupLine (relTo ["r", "w"] f) n) ∧
      (processGroup ⟨["r"], ["r", "w"], ["r", "o"], false⟩ ⟨[], [], [], []⟩
        ("h", [["r", "w", "b.txt"], ["r", "w", "a.txt"]])).outNames = [] ++ [n] ∧
      (∀ ps2, List.Perm [["r", "w", "b.txt"], ["r", "w", "a.txt"]] ps2 →
        processGroup ⟨["r"], ["r", "w"], ["r", "o"], false⟩ ⟨[], [], [], []⟩ ("h", ps2) =
          processGroup ⟨["r"], ["r", "w"], ["r", "o"], false⟩ ⟨[], [], [], []⟩
            ("h", [["r", "w", "b.txt"], ["r", "w", "a.txt"]])) :=
  c2_theorem ⟨["r"], ["r", "w"], ["r", "o"], false⟩ ⟨[], [], [], []⟩
    ("h", [["r", "w", "b.txt"], ["r", "w", "a.txt"]]) (by decide) (by decide)

/-- C4: with rename mode off, when the representative's destination
basename is already present in the output directory, the destination is
re-tagged to `fingerprint_basename`, the rename diagnostic is emitted,
the copy proceeds under the disambiguated name, and the pre-existing file
at the original basename is not overwritten (the tagged name differs from
the basename and the run performs no copy to the basename). -/
theorem c4_theorem (cfg : RunCfg) (st : PlaceState) (g : String × List Path)
    (w : Path) (rest : List Path)
    (hren : cfg.rename = false)
    (hall : ∀ p ∈ g.2, isWorking cfg p = true)
    (hsort : sortPaths g.2 = w :: rest)
    (hmem : (fileName w).getD "" ∈ st.outNames) :
    processGroup cfg st g =
      { outNames := st.outNames ++ [g.1 ++ "_" ++ (fileName w).getD ""]
        copies := st.copies ++ [((g.1 ++ "_" ++ (fileName w).getD ""), w)]
        report := st.report ++ rest.map (fun f => mkDupLine (relTo cfg.workDir f)
          (g.1 ++ "_" ++ (fileName w).getD ""))
        diags := st.diags ++ [renameDiag (relTo cfg.workDir w) ((fileName w).getD "")
          (g.1 ++ "_" ++ (fileName w).getD "")] } ∧
    g.1 ++ "_" ++ (fileName w).getD "" ≠ (fileName w).getD "" ∧
    copyLookup (processGroup cfg st g).copies ((fileName w).getD "") =
      copyLookup st.copies ((fileName w).getD "") := by
  rcases allWorking_filter_find cfg g hall with ⟨hfilter, hfind⟩
  have hw : (sortPaths g.2).filter (fun f => isWorking cfg f) = w :: rest := by
    rw [hfilter, hsort]
  have hpg := processGroup_retag hw hfind hren hmem
  refine ⟨hpg, tag_ne _ _, ?_⟩
  rw [hpg]
  exact copyLookup_other st.copies _ _ w (fun hc => tag_ne _ _ hc.symm)

/-- C4 witness: the retag behaviour evaluated on a concrete group whose
basename is already taken in the output directory. -/
theorem c4_witness :
    processGroup ⟨["r"], ["r", "w"], ["r", "o"], false⟩ ⟨["a.txt"], [], [], []⟩
      ("h", [["r", "w", "a.txt"]]) =
      { outNames := ["a.txt", "h_a.txt"]
        copies := [("h_a.txt", ["r", "w", "a.txt"])]
        report := []
        diags := ["File a.txt is unique, but a.txt already exists in output directory. Renaming to h_a.txt."] } := by
  have h := ( c4_theorem ⟨["r"], ["r", "w"], ["r", "o"], false⟩ ⟨["a.txt"], [], [], []⟩
    ("h", [["r", "w", "a.txt"]]) ["r", "w", "a.txt"] [] rfl (by decide) (by decide)
    (by decide)).1
  rw [h]
  decide

/-- C9: the placer never tests whether the fingerprint-tagged destination
already exists.  In rename mode the group's behaviour is a fixed copy to
`fingerprint_basename` for every placement state — in particular when
that name is already present — with no diagnostic, and the run's content
at that name is the new source (the copy overwrites).  In the retag path
of non-rename mode the copy likewise proceeds to the tagged name
regardless of its presence, and the run's content at that name is the new
source. -/
theorem c9_theorem (cfg : RunCfg) (st : PlaceState) (g : String × List Path)
    (w : Path) (rest : List Path)
    (hall : ∀ p ∈ g.2, isWorking cfg p = true)
    (hsort : sortPaths g.2 = w :: rest) :
    (cfg.rename = true →
      processGroup cfg st g =
        { outNames := st.outNames ++ [g.1 ++ "_" ++ (fileName w).getD ""]
          copies := st.copies ++ [((g.1 ++ "_" ++ (fileName w).getD ""), w)]
          report := st.report ++ rest.map (fun f => mkDupLine (relTo cfg.workDir f)
            (g.1 ++ "_" ++ (fileName w).getD ""))
          diags := st.diags } ∧
      copyLookup (processGroup cfg st g).copies (g.1 ++ "_" ++ (fileName w).getD "") =
        some w) ∧
    (cfg.rename = false → (fileName w).getD "" ∈ st.outNames →
      copyLookup (processGroup cfg st g).copies (g.1 ++ "_" ++ (fileName w).getD "") =
        some w ∧
      (processGroup cfg st g).diags = st.diags ++ [renameDiag (relTo cfg.workDir w)
        ((fileName w).getD "") (g.1 ++ "_" ++ (fileName w).getD "")]) := by
  rcases allWorking_filter_find cfg g hall with ⟨hfilter, hfind⟩
  have hw : (sortPaths g.2).filter (fun f => isWorking cfg f) = w :: rest := by
    rw [hfilter, hsort]
  constructor
  · intro hren
    have hcond : ¬ (cfg.rename = false ∧
        (if cfg.rename then g.1 ++ "_" ++ (fileName w).getD ""
          else (fileName w).getD "") ∈ st.outNames) := by
      intro hc
      rw [hren] at hc
      cases hc.1
    have hpg := processGroup_copy hw hfind hcond
    rw [hren] at hpg
    simp only [if_true] at hpg
    refine ⟨hpg, ?_⟩
    rw [hpg]
    exact copyLookup_last st.copies _ w
  · intro hren hmem
    have hpg := processGroup_retag hw hfind hren hmem
    constructor
    · rw [hpg]
      exact copyLookup_last st.copies _ w
    · rw [hpg]

/-- C9 witness: in rename mode, with `h_a.txt` already present in the
output directory, the copy still targets `h_a.txt`, overwrites it, and no
diagnostic is produced. -/
theorem c9_witness :
    processGroup ⟨["r"], ["r", "w"], ["r", "o"], true⟩ ⟨["h_a.txt"], [], [], []⟩
      ("h", [["r", "w", "a.txt"]]) =
      { outNames := ["h_a.txt", "h_a.txt"]
        copies := [("h_a.txt", ["r", "w", "a.txt"])]
        report := []
        diags := [] } ∧
    copyLookup (processGroup ⟨["r"], ["r", "w"], ["r", "o"], true⟩ ⟨["h_a.txt"], [], [], []⟩
      ("h", [["r", "w", "a.txt"]])).copies "h_a.txt" = some ["r", "w", "a.txt"] := by
  have h := ( c9_theorem ⟨["r"], ["r", "w"], ["r", "o"], true⟩ ⟨["h_a.txt"], [], [], []⟩
    ("h", [["r", "w", "a.txt"]]) ["r", "w", "a.txt"] [] (by decide) rfl).1 rfl
  refine ⟨?_, h.2⟩
  rw [h.1]
  decide

/-- C5: the hasher reads a file in bounded chunks of the constant size
4096, folds every chunk into the running digest so that the digest covers
exactly the file's full byte content, and returns the 32-character
lowercase hexadecimal MD5 of that content; an open failure or a failure
of any read (including the final, empty one) yields the I/O error and no
fingerprint. -/
theorem c5_theorem (f : MFile) :
    hashFile f =
      (if f.openFail then Except.error f.errMsg
       else match f.failRead with
         | some m =>
           if m ≤ numChunks f.content then Except.error f.errMsg
           else Except.ok (md5hex f.content)
         | none => Except.ok (md5hex f.content)) ∧
    (∀ cs, readChunks f.failRead f.errMsg f.content = Except.ok cs →
      cs.flatten = f.content ∧ ∀ ch ∈ cs, ch.length ≤ 4096 ∧ ch ≠ []) ∧
    (md5hex f.content).length = 32 ∧
    (∀ ch ∈ (md5hex f.content).data, ch ∈ hexChars) := by
  refine ⟨hashFile_eq f, ?_, md5hex_length _, fun ch hch => md5hex_chars _ ch hch⟩
  intro cs hcs
  rw [readChunks_spec] at hcs
  have hcs2 : cs = chunksOf f.content := by
    cases hfr : f.failRead with
    | none =>
      rw [hfr] at hcs
      simp only [Except.ok.injEq] at hcs
      exact hcs.symm
    | some m =>
      rw [hfr] at hcs
      have hcs2 : (if m ≤ numChunks f.content then Except.error f.errMsg
          else Except.ok (chunksOf f.content)) = Except.ok cs := hcs
      by_cases hm : m ≤ numChunks f.content
      · rw [if_pos hm] at hcs2
        cases hcs2
      · rw [if_neg hm] at hcs2
        simp only [Except.ok.injEq] at hcs2
        exact hcs2.symm
  subst hcs2
  exact ⟨chunksOf_flatten _, fun ch hch => chunksOf_mem _ ch hch⟩

/-- C5 witness: the chunk conjunct discharged on a concrete successful
read of a three-byte file. -/
theorem c5_witness :
    ([[7, 8, 9]] : List (List Nat)).flatten = [7, 8, 9] ∧
    (∀ ch ∈ ([[7, 8, 9]] : List (List Nat)), ch.length ≤ 4096 ∧ ch ≠ []) :=
  (c5_theorem ⟨[7, 8, 9], false, none, "e"⟩).2.1 [[7, 8, 9]] (by decide)

/-- C6, counterexample: a walk over a tree whose first subdirectory is
unreadable does not abort at the listing error — the error is yielded as
an item and the walk continues, discovering and hashing the later file
`b.txt`.  This refutes "the walk aborts on the first listing error rather
than skipping the offending subtree". -/
theorem c6_counterexample :
    walkResults ["r"] [FSEntry.dir "d" (Except.error "boom"),
      FSEntry.file "b.txt" (Except.ok [1])] =
      [Except.error "boom", Except.ok (["r", "b.txt"], Except.ok [1])] ∧
    (walkResults ["r"] [FSEntry.dir "d" (Except.error "boom"),
      FSEntry.file "b.txt" (Except.ok [1])]).map hashItem =
      [Except.error "boom", Except.ok (["r", "b.txt"], md5hex [1])] := by
  constructor <;> (rw [walkResults_eq]; rfl)

/-- C6 (amended): any hash or listing error makes the whole run fail —
once any error item is present among the collected hash results, `main`
returns the first collected error and produces no report and no copies;
the walk itself, however, continues past a listing error (see the
counterexample), and the abort happens at the sequential collection
loop. -/
theorem c6_theorem (cfg : RunCfg) (fs fs1 : List FSEntry) (outerNames : List String)
    (rel : List String) (e0 : String)
    (hrel : stripDir cfg.root cfg.outDir = some rel)
    (hcd : createDirAll fs rel = Except.ok fs1)
    (hmem : Except.error e0 ∈ (walkResults cfg.root fs1).map hashItem) :
    ∃ e, firstError ((walkResults cfg.root fs1).map hashItem) = some e ∧
      runMain cfg fs outerNames = Except.error e := by
  rcases firstError_of_mem hmem with ⟨e, he⟩
  exact ⟨e, he, runMain_error_of_firstError hrel hcd he⟩

/-- C6 witness: the amended statement on a tree with an unreadable
subdirectory. -/
theorem c6_witness :
    ∃ e, firstError ((walkResults ["r"]
        [FSEntry.dir "w" (Except.ok []), FSEntry.dir "d" (Except.error "boom"),
         FSEntry.dir "o" (Except.ok [])]).map hashItem) = some e ∧
      runMain ⟨["r"], ["r", "w"], ["r", "o"], false⟩
        [FSEntry.dir "w" (Except.ok []), FSEntry.dir "d" (Except.error "boom")] [] =
        Except.error e :=
  c6_theorem ⟨["r"], ["r", "w"], ["r", "o"], false⟩
    [FSEntry.dir "w" (Except.ok []), FSEntry.dir "d" (Except.error "boom")]
    [FSEntry.dir "w" (Except.ok []), FSEntry.dir "d" (Except.error "boom"),
     FSEntry.dir "o" (Except.ok [])] [] ["o"] "boom" rfl rfl
    (by simp only [walkResults_eq]; decide)

theorem count_le_one_of_nodup {l : List Path} (h : l.Nodup) (a : Path) :
    l.count a ≤ 1 := by
  induction l with
  | nil => simp
  | cons b bs ih =>
    rcases List.nodup_cons.mp h with ⟨hb, hbs⟩
    by_cases hba : b = a
    · subst hba
      rw [List.count_cons_self, List.count_eq_zero.mpr hb]
    · rw [List.count_cons_of_ne (Ne.symm hba)]
      exact ih hbs

theorem count_one_of_nodup_mem {l : List Path} (h : l.Nodup) {a : Path}
    (ha : a ∈ l) : l.count a = 1 :=
  Nat.le_antisymm (count_le_one_of_nodup h a) (List.count_pos_iff.mpr ha)

/-- C7: on a successful run over a well-formed tree, every non-directory
entry reachable by recursive descent appears exactly once across all
fingerprint groups — each reachable file's path has multiplicity exactly
one in the union of the groups, no path has multiplicity above one, and
no directory path ever appears. -/
theorem c7_theorem (root : Path) (fs : List FSEntry) (recs : List (Path × String))
    (hwf : wfFS fs = true)
    (hok : collectRecords ((walkResults root fs).map hashItem) = Except.ok recs) :
    (∀ rel : List String,
      (groupsPaths (buildGroups recs)).count (root ++ rel) ≤ 1) ∧
    (∀ rel : List String,
      ((groupsPaths (buildGroups recs)).count (root ++ rel) = 1 ↔ FileIn fs rel)) ∧
    (∀ rel : List String, DirIn fs rel → (root ++ rel) ∉ groupsPaths (buildGroups recs)) := by
  have hnn : nodupNames fs = true ∧ wfEntries fs = true := by
    rw [show wfFS fs = (nodupNames fs && wfEntries fs) from rfl,
      Bool.and_eq_true_iff] at hwf
    exact hwf
  have hpaths : recs.map Prod.fst = okPaths (walkResults root fs) := records_paths hok
  have hperm : List.Perm (groupsPaths (buildGroups recs))
      (okPaths (entsOut root fs)) := by
    have h := buildGroups_paths recs
    rw [hpaths, walkResults_eq] at h
    exact h
  have hnd : (okPaths (entsOut root fs)).Nodup :=
    entsOut_nodup (szEntries fs) fs (Nat.le_refl _) hnn.1 hnn.2 root
  have hcnt : ∀ q : Path, (groupsPaths (buildGroups recs)).count q =
      (okPaths (entsOut root fs)).count q := by
    intro q
    rw [List.count_eq_countP, List.count_eq_countP]
    exact List.Perm.countP_eq _ hperm
  refine ⟨?_, ?_, ?_⟩
  · intro rel
    rw [hcnt]
    exact count_le_one_of_nodup hnd _
  · intro rel
    rw [hcnt]
    constructor
    · intro h1
      have hmem : root ++ rel ∈ okPaths (entsOut root fs) :=
        List.count_pos_iff.mp (by omega)
      exact (entsOut_mem_iff (szEntries fs) fs (Nat.le_refl _) root rel).mp hmem
    · intro hf
      exact count_one_of_nodup_mem hnd
        ((entsOut_mem_iff (szEntries fs) fs (Nat.le_refl _) root rel).mpr hf)
  · intro rel hd hmem
    have hmem2 : root ++ rel ∈ okPaths (entsOut root fs) :=
      hperm.mem_iff.mp hmem
    have hf := (entsOut_mem_iff (szEntries fs) fs (Nat.le_refl _) root rel).mp hmem2
    exact FileIn_DirIn_absurd (szEntries fs) fs (Nat.le_refl _) hnn.1 hnn.2 rel hf hd

/-- C7 witness: the exactly-once property on a concrete two-file tree. -/
theorem c7_witness :
    (groupsPaths (buildGroups [((["r", "w", "a.txt"] : Path), md5hex [1]),
      ((["r", "b.txt"] : Path), md5hex [2])])).count (["r"] ++ ["w", "a.txt"]) = 1 :=
  ((( c7_theorem ["r"]
      [FSEntry.dir "w" (Except.ok [FSEntry.file "a.txt" (Except.ok [1])]),
       FSEntry.file "b.txt" (Except.ok [2])]
      [((["r", "w", "a.txt"] : Path), md5hex [1]), ((["r", "b.txt"] : Path), md5hex [2])]
      (by decide) (by simp only [walkResults_eq]; rfl)).2.1 ["w", "a.txt"]).mpr
    (FileIn.there (List.mem_cons_self _ _) (FileIn.here (List.mem_cons_self _ _))))

/-- C8: every path produced by the walker strictly extends the root, so
`strip_prefix(root)` succeeds and `file_name` is defined on it; and
`strip_prefix` of any directory succeeds on every path that passes its
`starts_with` filter — the classifier's and placer's `unwrap`s cannot
panic. -/
theorem c8_theorem (root workDir : Path) (fs : List FSEntry) (q : Path)
    (c : Except String (List Nat))
    (hmem : (Except.ok (q, c) : WalkItem) ∈ walkResults root fs) :
    (stripDir root q).isSome ∧ (fileName q).isSome ∧
    (startsWith q workDir = true → (stripDir workDir q).isSome) ∧
    (∀ d p2 : Path, startsWith p2 d = true → (stripDir d p2).isSome) := by
  have hq : q ∈ okPaths (walkResults root fs) :=
    List.mem_filterMap.mpr ⟨Except.ok (q, c), hmem, rfl⟩
  rw [walkResults_eq] at hq
  rcases entsOut_shape (szEntries fs) fs (Nat.le_refl _) root q hq with ⟨e, _, suf, hqe⟩
  have hgen : ∀ d p2 : Path, startsWith p2 d = true → (stripDir d p2).isSome := by
    intro d p2 h
    simp [stripDir, h]
  refine ⟨?_, ?_, hgen workDir q, hgen⟩
  · apply hgen
    rw [hqe]
    unfold startsWith
    rw [List.isPrefixOf_iff_prefix]
    exact ⟨entryName e :: suf, rfl⟩
  · rw [hqe]
    rw [fileName, List.getLast?_isSome]
    simp

/-- C8 witness: the unwrap-safety facts on a concrete walked path. -/
theorem c8_witness :
    (stripDir ["r"] ["r", "w", "a.txt"]).isSome ∧
    (fileName ["r", "w", "a.txt"]).isSome ∧
    (startsWith ["r", "w", "a.txt"] ["r", "w"] = true →
      (stripDir ["r", "w"] ["r", "w", "a.txt"]).isSome) ∧
    (∀ d p2 : Path, startsWith p2 d = true → (stripDir d p2).isSome) :=
  c8_theorem ["r"] ["r", "w"]
    [FSEntry.dir "w" (Except.ok [FSEntry.file "a.txt" (Except.ok [1])])]
    ["r", "w", "a.txt"] (Except.ok [1])
    (by simp only [walkResults_eq]; decide)

/-- C10: the output directory is created before the walk and is not
excluded from it — the stale scenario, for every byte content `c`: the
default output directory `w.uniq` under the root is found (createDirAll
succeeds before any walking), the stale file `w.uniq/old.txt` inside it
is enumerated and hashed by the walk, it is classified as non-working,
and the whole run reports the working file `a.txt` as a duplicate of the
prior output (`a.txt = w.uniq/old.txt`) while copying nothing. -/
theorem c10_theorem (c : List Nat) :
    stripDir staleCfg.root staleCfg.outDir = some ["w.uniq"] ∧
    createDirAll (staleFS c) ["w.uniq"] = Except.ok (staleFS c) ∧
    Except.ok ((["r", "w.uniq", "old.txt"] : Path), Except.ok c) ∈
      walkResults staleCfg.root (staleFS c) ∧
    isWorking staleCfg ["r", "w.uniq", "old.txt"] = false ∧
    runMain staleCfg (staleFS c) [] =
      Except.ok ⟨["old.txt"], [], ["a.txt = w.uniq/old.txt"], []⟩ := by
  refine ⟨rfl, stale_create c, ?_, rfl, stale_run c⟩
  rw [stale_walk c]
  exact List.mem_cons_of_mem _ (List.mem_cons_self _ _)

/-- C3, counterexample: the same multiset of (path, fingerprint) records
processed in two different map-iteration orders (both groups are
all-working, rename off, colliding basename `a.txt`) yields different
output-directory contents: the order decides which source lands at
`a.txt` and whether the other is retagged `h1_a.txt` or `h2_a.txt`.
This refutes unconditional run-to-run byte-identity of the output
directory. -/
theorem c3_counterexample :
    List.Perm
      [((["r", "w", "x", "a.txt"] : Path), "h1"), ((["r", "w", "y", "a.txt"] : Path), "h2")]
      [((["r", "w", "y", "a.txt"] : Path), "h2"), ((["r", "w", "x", "a.txt"] : Path), "h1")] ∧
    (processGroups ⟨["r"], ["r", "w"], ["r", "o"], false⟩
      (buildGroups [((["r", "w", "x", "a.txt"] : Path), "h1"),
        ((["r", "w", "y", "a.txt"] : Path), "h2")]) ⟨[], [], [], []⟩).outNames =
      ["a.txt", "h2_a.txt"] ∧
    (processGroups ⟨["r"], ["r", "w"], ["r", "o"], false⟩
      (buildGroups [((["r", "w", "y", "a.txt"] : Path), "h2"),
        ((["r", "w", "x", "a.txt"] : Path), "h1")]) ⟨[], [], [], []⟩).outNames =
      ["a.txt", "h1_a.txt"] ∧
    copyLookup (processGroups ⟨["r"], ["r", "w"], ["r", "o"], false⟩
      (buildGroups [((["r", "w", "x", "a.txt"] : Path), "h1"),
        ((["r", "w", "y", "a.txt"] : Path), "h2")]) ⟨[], [], [], []⟩).copies "a.txt" =
      some ["r", "w", "x", "a.txt"] ∧
    copyLookup (processGroups ⟨["r"], ["r", "w"], ["r", "o"], false⟩
      (buildGroups [((["r", "w", "y", "a.txt"] : Path), "h2"),
        ((["r", "w", "x", "a.txt"] : Path), "h1")]) ⟨[], [], [], []⟩).copies "a.txt" =
      some ["r", "w", "y", "a.txt"] := by
  decide

/-- C3 (amended): run-to-run determinism holds under the extra proviso
that no two fingerprint groups resolve to the same destination name (so
the state-dependent retag branch is never taken): then for any two
map-iteration orders of the same records the sorted duplicate report is
identical and the final content of the output directory at every name is
identical. -/
theorem c3_theorem (cfg : RunCfg) (rs1 rs2 : List (Path × String))
    (gs1 gs2 : List (String × List Path))
    (hrec : List.Perm rs1 rs2)
    (hg1 : List.Perm gs1 (buildGroups rs1))
    (hg2 : List.Perm gs2 (buildGroups rs2))
    (hnd : (gs1.filterMap (groupDest cfg)).Nodup) :
    finalReport (processGroups cfg gs1 ⟨[], [], [], []⟩) =
      finalReport (processGroups cfg gs2 ⟨[], [], [], []⟩) ∧
    ∀ n, copyLookup (processGroups cfg gs1 ⟨[], [], [], []⟩).copies n =
      copyLookup (processGroups cfg gs2 ⟨[], [], [], []⟩).copies n := by
  have h1 : List.Perm (gs1.map normG) (gs2.map normG) :=
    ((hg1.map normG).trans (buildGroups_perm hrec)).trans ((hg2.map normG).symm)
  exact processGroups_perm_core cfg h1 hnd

/-- C3 witness: the amended determinism on two iteration orders of a
two-group record set with distinct basenames. -/
theorem c3_witness :
    finalReport (processGroups ⟨["r"], ["r", "w"], ["r", "o"], false⟩
        (buildGroups [((["r", "w", "a.txt"] : Path), "h1"),
          ((["r", "w", "b.txt"] : Path), "h2")]) ⟨[], [], [], []⟩) =
      finalReport (processGroups ⟨["r"], ["r", "w"], ["r", "o"], false⟩
        (buildGroups [((["r", "w", "b.txt"] : Path), "h2"),
          ((["r", "w", "a.txt"] : Path), "h1")]) ⟨[], [], [], []⟩) ∧
    ∀ n, copyLookup (processGroups ⟨["r"], ["r", "w"], ["r", "o"], false⟩
        (buildGroups [((["r", "w", "a.txt"] : Path), "h1"),
          ((["r", "w", "b.txt"] : Path), "h2")]) ⟨[], [], [], []⟩).copies n =
      copyLookup (processGroups ⟨["r"], ["r", "w"], ["r", "o"], false⟩
        (buildGroups [((["r", "w", "b.txt"] : Path), "h2"),
          ((["r", "w", "a.txt"] : Path), "h1")]) ⟨[], [], [], []⟩).copies n :=
  c3_theorem ⟨["r"], ["r", "w"], ["r", "o"], false⟩
    [((["r", "w", "a.txt"] : Path), "h1"), ((["r", "w", "b.txt"] : Path), "h2")]
    [((["r", "w", "b.txt"] : Path), "h2"), ((["r", "w", "a.txt"] : Path), "h1")]
    (buildGroups [((["r", "w", "a.txt"] : Path), "h1"),
      ((["r", "w", "b.txt"] : Path), "h2")])
    (buildGroups [((["r", "w", "b.txt"] : Path), "h2"),
      ((["r", "w", "a.txt"] : Path), "h1")])
    (by decide) (List.Perm.refl _) (List.Perm.refl _) (by decide)




end Uniq
